import Mathlib

/-!
Verification of the FFT-drawing repository (`src/complex.rs`, `src/fft.rs`,
`src/epicycle.rs`).  Rust `f64` values are modelled as real numbers
(exact arithmetic); `u32` casts and bitwise operations are modelled on `Nat`
with explicit reduction modulo `2 ^ 32`; indexing and `Vec::swap` calls that
can panic are modelled with `Option` (`none` = panic).
-/

set_option maxHeartbeats 1000000

noncomputable section

namespace complex

/-- Complex number type from src/complex.rs; the two `f64` fields are
modelled as real numbers. -/
structure Complex where
  re : ℝ
  im : ℝ

namespace Complex

/-- `Complex::new` from src/complex.rs. -/
def new (re im : ℝ) : Complex := ⟨re, im⟩

/-- `Complex::phase` from src/complex.rs: `angular::atan(self.im / self.re)`.
`angular::atan` is the single-argument arctangent; the radian value extracted
by `in_radians` at the call sites is `Real.arctan` of the ratio. -/
def phase (c : Complex) : ℝ := Real.arctan (c.im / c.re)

/-- `Complex::amplitude` from src/complex.rs. -/
def amplitude (c : Complex) : ℝ := Real.sqrt ((c.re * c.re) + (c.im * c.im))

/-- `Complex::add` from src/complex.rs. -/
def add (first second : Complex) : Complex :=
  new (first.re + second.re) (first.im + second.im)

/-- `Complex::minus` from src/complex.rs (parameters `from`/`with` are Lean
keywords, renamed `f`/`w`). -/
def minus (f w : Complex) : Complex :=
  new (f.re - w.re) (f.im - w.im)

/-- `Complex::multiply` from src/complex.rs. -/
def multiply (first second : Complex) : Complex :=
  new ((first.re * second.re) - (first.im * second.im))
      ((first.re * second.im) + (first.im * second.re))

/-- Interpretation of the source complex type into Mathlib's `ℂ`,
used only to state and prove theorems. -/
def toC (c : Complex) : ℂ := ⟨c.re, c.im⟩

end Complex
end complex

namespace fft

/-- Reversal of the low `k` bits of a natural number (specification device
for the permutation computed by `butterfly`). -/
def bitRev : Nat → Nat → Nat
  | 0, _ => 0
  | k + 1, n => (n % 2) * 2 ^ k + bitRev k (n / 2)

/-- The `u32` bitwise complement `!mask` from src/fft.rs, for values
below `2 ^ 32`. -/
def u32Not (m : Nat) : Nat := m ^^^ (2 ^ 32 - 1)

/-- The inner `while` loop of `butterfly` in src/fft.rs: while the current
`mask` bit of `target` is set, clear it and shift `mask` right; finally set
the `mask` bit (the bit-reversed-counter increment idiom). -/
def advanceTarget (target mask : Nat) : Nat :=
  if target &&& mask ≠ 0 then
    advanceTarget (target &&& u32Not mask) (mask >>> 1)
  else
    target ||| mask
termination_by mask
decreasing_by
  rename_i h
  have hm : mask ≠ 0 := by
    intro h0
    rw [h0] at h
    simp at h
  simp only [Nat.shiftRight_eq_div_pow, pow_one]
  omega

/-- Rust's `Vec::swap` as used by `butterfly`: panics (`none`) when an index
is out of bounds. -/
def vecSwap {α : Type} (l : List α) (i j : Nat) : Option (List α) :=
  match l[i]?, l[j]? with
  | some a, some b => some ((l.set i b).set j a)
  | _, _ => none

/-- The `for position in 0..data.len()` loop of `butterfly` from src/fft.rs;
the first argument counts the positions still to be processed.  Each
iteration swaps when `target > position`, then recomputes the mask from the
length (the `data.len() as u32` cast is the reduction modulo `2 ^ 32`) and
advances the bit-reversed counter. -/
def butterflyAux {α : Type} : Nat → Nat → Nat → List α → Option (List α)
  | 0, _, _, data => some data
  | n + 1, position, target, data =>
    match (if target > position then vecSwap data position target else some data) with
    | none => none
    | some d =>
      butterflyAux n (position + 1) (advanceTarget target ((d.length % 2 ^ 32) >>> 1)) d

/-- `butterfly` from src/fft.rs. -/
def butterfly {α : Type} (data : List α) : Option (List α) :=
  butterflyAux data.length 0 0 data

end fft

namespace fft

/-- Default element used to state list-indexing facts (`List.getD`). -/
def czero : complex.Complex := complex.Complex.new 0 0

/-- The inner `for pair in (group..data.len()).step_by(jump)` loop of `fft`
from src/fft.rs, starting at `pair`.  Indexing `data[matched]` out of bounds
is a panic (`none`); `step_by` panics when `jump = 0`. -/
def fftPairs (step jump : Nat) (factor : complex.Complex) (pair : Nat)
    (data : List complex.Complex) : Option (List complex.Complex) :=
  if jump = 0 then none
  else if h : pair < data.length then
    let matched := pair + step
    match data[matched]?, data[pair]? with
    | some dm, some dp =>
      let product := complex.Complex.multiply factor dm
      fftPairs step jump factor (pair + jump)
        ((data.set matched (complex.Complex.minus dp product)).set pair
          (complex.Complex.add dp product))
    | _, _ => none
  else some data
termination_by data.length - pair
decreasing_by
  simp only [List.length_set]
  omega

/-- One value of `step` in the `while step < length` loop of `fft` from
src/fft.rs: the per-stage twiddle seed `factor_multiplier`, the initial
`factor` of `1`, and the `for group in 0..step` loop that runs `fftPairs`
and then updates `factor` by the incremental recurrence. -/
def fftStage (step : Nat) (data : List complex.Complex) :
    Option (List complex.Complex) :=
  let jump := step <<< 1
  let delta : ℝ := -1 * Real.pi / (step : ℝ)
  let temp_sin := Real.sin (delta * 0.5)
  let factor_multiplier := complex.Complex.new (-2 * temp_sin * temp_sin) (Real.sin delta)
  Option.map Prod.snd <|
    (List.range step).foldlM
      (fun (st : complex.Complex × List complex.Complex) group => do
        let d ← fftPairs step jump st.1 group st.2
        pure (complex.Complex.add (complex.Complex.multiply factor_multiplier st.1) st.1, d))
      (complex.Complex.new 1 0, data)

/-- The `while step < length` loop of `fft` from src/fft.rs (`length` is read
once, before the loop; `step` doubles each iteration).  The conjunct
`0 < step` only serves the termination measure; `fft` enters the loop with
`step = 1` and doubling keeps it positive. -/
def fftStages (length : Nat) (step : Nat) (data : List complex.Complex) :
    Option (List complex.Complex) :=
  if h : 0 < step ∧ step < length then
    match fftStage step data with
    | none => none
    | some d => fftStages length (step <<< 1) d
  else some data
termination_by length - step
decreasing_by
  simp only [Nat.shiftLeft_eq, pow_one]
  omega

/-- `fft` from src/fft.rs: bit-reversal permutation, then the doubling-step
stage loop. -/
def fft (data : List complex.Complex) : Option (List complex.Complex) :=
  match butterfly data with
  | none => none
  | some d => fftStages d.length 1 d

/-- `dft` from src/fft.rs: direct double summation.  `data[n]` is always in
bounds there (`n < data.len()`), modelled total with `getD`. -/
def dft (data : List complex.Complex) : List complex.Complex :=
  (List.range data.length).map (fun (term : Nat) =>
    (List.range data.length).foldl
      (fun (sum : complex.Complex) (n : Nat) =>
        let angle : ℝ :=
          Real.pi * 2 * (term : ℝ) * (n : ℝ) / (data.length : ℝ)
        let e := complex.Complex.new (Real.cos angle) (-1 * Real.sin angle)
        complex.Complex.add sum (complex.Complex.multiply (data.getD n czero) e))
      (complex.Complex.new 0 0))

/-- Value of a list of source complex numbers at an index, as a Mathlib
complex number (specification device). -/
def getc (l : List complex.Complex) (i : Nat) : ℂ :=
  complex.Complex.toC (l.getD i czero)

/-- The `N`-th principal root of unity with negative orientation,
`exp(-2 pi i / N)` (specification device). -/
def twiddle (N : Nat) : ℂ := Complex.exp (-(2 * Real.pi / (N : ℝ)) * Complex.I)

/-- A concrete length-3 input (not a power of two) for exercising the
out-of-bounds `data[matched]` access of `fft`. -/
def data3 : List complex.Complex :=
  [complex.Complex.new 1 0, complex.Complex.new 2 0, complex.Complex.new 3 0]

/-- A concrete length-2 input used to instantiate general statements. -/
def data2 : List complex.Complex :=
  [complex.Complex.new 1 0, complex.Complex.new 2 0]

/-- A concrete length-4 list of naturals used to instantiate the generic
permutation statements. -/
def nums4 : List Nat := [10, 20, 30, 40]

/-- The length-`2 ^ 32` unit impulse at index 1: input witnessing the
`data.len() as u32` truncation inside `butterfly`. -/
def x32 : List complex.Complex :=
  (List.range (2 ^ 32)).map
    (fun n => if n = 1 then complex.Complex.new 1 0 else complex.Complex.new 0 0)

/-- The per-stage `factor_multiplier` of `fft` (named form of the `let` in
`fftStage`): real part `-2 * sin(delta/2)^2`, imaginary part `sin delta`,
with `delta = -pi / step`. -/
def stageFm (step : Nat) : complex.Complex :=
  complex.Complex.new
    (-2 * Real.sin (-1 * Real.pi / (step : ℝ) * 0.5) *
      Real.sin (-1 * Real.pi / (step : ℝ) * 0.5))
    (Real.sin (-1 * Real.pi / (step : ℝ)))

/-- The `factor` value after `g` executions of the
`factor = factor_multiplier * factor + factor` update in `fft`
(specification device mirroring the loop of `fftStage`). -/
def factorIter (fm : complex.Complex) : Nat → complex.Complex
  | 0 => complex.Complex.new 1 0
  | g + 1 =>
    complex.Complex.add
      (complex.Complex.multiply fm (factorIter fm g)) (factorIter fm g)

end fft

namespace epicycle

/-- `Coordinate` from src/epicycle.rs. -/
structure Coordinate where
  x : ℝ
  y : ℝ

/-- `InvalidPrecisionError` from src/epicycle.rs. -/
structure InvalidPrecisionError where
  msg : String

/-- `InvalidPrecisionError::new` from src/epicycle.rs (the `format!` string
with both precisions interpolated). -/
def InvalidPrecisionError.new (requested_precision max_precision : Nat) :
    InvalidPrecisionError :=
  ⟨toString requested_precision ++
    "th precision is not possible, can only compute up to " ++
    toString max_precision ++ " epicycle precision"⟩

/-- `Epicycle` from src/epicycle.rs: complex coefficients paired with their
`u64` frequency index. -/
structure Epicycle where
  data : List (complex.Complex × Nat)

/-- The comparator passed to `sort_by` in `Epicycle::new`:
`b.amplitude().partial_cmp(&a.amplitude()).unwrap()`, i.e. descending
amplitude.  Over the real-number model `partial_cmp` is never `None`; as a
Boolean `le` for the stable sort, `x ≤ y` iff the comparator does not return
`Greater`, i.e. iff `amplitude y ≤ amplitude x`. -/
def amplitudeDesc (x y : complex.Complex × Nat) : Bool :=
  decide (complex.Complex.amplitude y.1 ≤ complex.Complex.amplitude x.1)

/-- `Epicycle::new` from src/epicycle.rs: zip the coefficients with
`0..size`, then stable-sort by descending amplitude (Rust's `sort_by` is a
stable sort; `List.mergeSort` is the stable sort of the Lean library, and
any two stable sorts agree). -/
def Epicycle.new (input : List complex.Complex) : Epicycle :=
  ⟨(input.zip (List.range input.length)).mergeSort amplitudeDesc⟩

/-- The `for i in 0..nth` accumulation loop of `get_coordinate_for` from
src/epicycle.rs, over the first `nth` stored pairs, with the `break` on
`radius < 1E-9`. -/
def coordLoop (time : ℝ) : List (complex.Complex × Nat) → ℝ → ℝ → ℝ × ℝ
  | [], x_coord, y_coord => (x_coord, y_coord)
  | (c, f) :: rest, x_coord, y_coord =>
    let radius := complex.Complex.amplitude c
    if radius < 1e-9 then (x_coord, y_coord)
    else
      let phase := complex.Complex.phase c
      let frequency : ℝ := (f : ℝ)
      coordLoop time rest
        (x_coord + radius * Real.cos (frequency * time + phase))
        (y_coord + radius * Real.sin (frequency * time + phase))

/-- `Epicycle::get_coordinate_for` from src/epicycle.rs. -/
def Epicycle.get_coordinate_for (e : Epicycle) (time : ℝ) (precision : Nat) :
    Except InvalidPrecisionError Coordinate :=
  let nth := precision
  if nth > e.data.length then
    .error (InvalidPrecisionError.new nth e.data.length)
  else
    let p := coordLoop time (e.data.take nth) 0 0
    .ok ⟨p.1, p.2⟩

/-- Default pair used to state list-indexing facts. -/
def pzero : complex.Complex × Nat := (complex.Complex.new 0 0, 0)

/-- The three-sample input of `get_coordinate_test` in src/epicycle.rs:
`(1,1), (3,4), (5,6)`. -/
def sample7 : List complex.Complex :=
  [complex.Complex.new 1 1, complex.Complex.new 3 4, complex.Complex.new 5 6]

end epicycle

/-! ## Theorems -/

namespace complex

namespace Complex

theorem toC_re (c : Complex) : (toC c).re = c.re := rfl

theorem toC_im (c : Complex) : (toC c).im = c.im := rfl

theorem toC_inj {a b : Complex} (h : toC a = toC b) : a = b := by
  cases a; cases b
  have hre := congrArg (fun z => z.re) h
  have him := congrArg (fun z => z.im) h
  simp only [toC] at hre him
  simp [hre, him]

theorem toC_add (a b : Complex) : toC (add a b) = toC a + toC b := by
  apply Complex.ext <;> simp [toC, add, new]

theorem toC_minus (a b : Complex) : toC (minus a b) = toC a - toC b := by
  apply Complex.ext <;> simp [toC, minus, new]

theorem toC_multiply (a b : Complex) : toC (multiply a b) = toC a * toC b := by
  apply Complex.ext <;> simp [toC, multiply, new, Complex.mul_re, Complex.mul_im]

theorem toC_new (x y : ℝ) : toC (new x y) = ⟨x, y⟩ := rfl

end Complex

end complex

namespace fft

open complex

theorem bitRev_lt (k n : Nat) : bitRev k n < 2 ^ k := by
  induction k generalizing n with
  | zero => simp [bitRev]
  | succ k ih =>
    have h1 : n % 2 * 2 ^ k ≤ 2 ^ k := by
      have h2 : n % 2 ≤ 1 := by omega
      calc n % 2 * 2 ^ k ≤ 1 * 2 ^ k := Nat.mul_le_mul_right _ h2
        _ = 2 ^ k := by ring
    have h3 := ih (n / 2)
    have h4 : bitRev (k + 1) n = n % 2 * 2 ^ k + bitRev k (n / 2) := rfl
    have hpow : (2 : Nat) ^ (k + 1) = 2 ^ k + 2 ^ k := by ring
    omega

theorem bitRev_zero_right (k : Nat) : bitRev k 0 = 0 := by
  induction k with
  | zero => rfl
  | succ k ih => simp [bitRev, ih]

theorem bitRev_two_mul (k b : Nat) : bitRev (k + 1) (2 * b) = bitRev k b := by
  simp [bitRev, Nat.mul_div_cancel_left, Nat.mul_mod_right]

theorem bitRev_two_mul_add_one (k b : Nat) :
    bitRev (k + 1) (2 * b + 1) = 2 ^ k + bitRev k b := by
  have h1 : (2 * b + 1) % 2 = 1 := by omega
  have h2 : (2 * b + 1) / 2 = b := by omega
  simp [bitRev, h1, h2]

theorem bitRev_one {k : Nat} (hk : 0 < k) : bitRev k 1 = 2 ^ (k - 1) := by
  obtain ⟨k', rfl⟩ : ∃ k', k = k' + 1 := ⟨k - 1, by omega⟩
  simp [bitRev, bitRev_zero_right]

theorem testBit_two_pow_add {j r : Nat} (hr : r < 2 ^ j) (i : Nat) :
    (2 ^ j + r).testBit i = (decide (i = j) || r.testBit i) := by
  rcases Nat.lt_trichotomy i j with hij | rfl | hij
  · have h1 : decide (i = j) = false := by simp; omega
    rw [h1, Bool.false_or, Nat.testBit_to_div_mod, Nat.testBit_to_div_mod]
    have h2 : (2 : Nat) ^ j = 2 ^ i * (2 * 2 ^ (j - i - 1)) := by
      rw [← pow_succ']
      rw [← pow_add]
      congr 1
      omega
    rw [h2, Nat.mul_add_div (by positivity : 0 < 2 ^ i)]
    simp only [decide_eq_decide]
    omega
  · simp only [decide_True, Bool.true_or]
    rw [Nat.testBit_to_div_mod]
    have h1 : (2 ^ i + r) / 2 ^ i = 1 := by
      rw [Nat.add_comm, Nat.add_div_right _ (by positivity : 0 < 2 ^ i),
        Nat.div_eq_of_lt hr]
    rw [h1]
    rfl
  · have h1 : decide (i = j) = false := by simp; omega
    rw [h1, Bool.false_or]
    have ha : 2 ^ j + r < 2 ^ i := by
      have hb : (2 : Nat) ^ (j + 1) ≤ 2 ^ i := Nat.pow_le_pow_right (by norm_num) (by omega)
      have hc : (2 : Nat) ^ (j + 1) = 2 ^ j + 2 ^ j := by ring
      omega
    rw [Nat.testBit_lt_two_pow ha, Nat.testBit_lt_two_pow (by omega : r < 2 ^ i)]

theorem lor_two_pow_of_lt {j r : Nat} (hr : r < 2 ^ j) : r ||| 2 ^ j = 2 ^ j + r := by
  apply Nat.eq_of_testBit_eq
  intro i
  rw [Nat.testBit_lor, testBit_two_pow_add hr]
  by_cases h : i = j
  · subst h
    simp [Nat.testBit_two_pow_self]
  · rw [Nat.testBit_two_pow_of_ne (fun hh => h hh.symm)]
    simp [h]

theorem and_two_pow_of_lt {b j r : Nat} (hb : b ≤ 1) (hr : r < 2 ^ j) :
    (b * 2 ^ j + r) &&& 2 ^ j = b * 2 ^ j := by
  rw [Nat.and_two_pow]
  interval_cases b
  · simp [Nat.testBit_lt_two_pow hr]
  · rw [one_mul, testBit_two_pow_add hr]
    simp

theorem and_u32Not_two_pow {j r : Nat} (hj : j < 32) (hr : r < 2 ^ j) :
    (2 ^ j + r) &&& u32Not (2 ^ j) = r := by
  apply Nat.eq_of_testBit_eq
  intro i
  rw [Nat.testBit_land, u32Not, Nat.testBit_xor, testBit_two_pow_add hr,
    Nat.testBit_two_pow_sub_one]
  by_cases hij : i = j
  · subst hij
    simp [Nat.testBit_two_pow_self, hj, Nat.testBit_lt_two_pow hr]
  · rw [Nat.testBit_two_pow_of_ne (fun hh => hij hh.symm)]
    by_cases h32 : i < 32
    · simp [hij, h32]
    · have hri : r < 2 ^ i := by
        have h1 : (2 : Nat) ^ j ≤ 2 ^ 32 := Nat.pow_le_pow_right (by norm_num) (by omega)
        have h2 : (2 : Nat) ^ 32 ≤ 2 ^ i := Nat.pow_le_pow_right (by norm_num) (by omega)
        omega
      simp [hij, h32, Nat.testBit_lt_two_pow hri]

/-- Alternative characterization of `bitRev` peeling the top bit instead of
the bottom one. -/
theorem bitRev_high_low (k : Nat) :
    ∀ n, n < 2 ^ (k + 1) → bitRev (k + 1) n = 2 * bitRev k (n % 2 ^ k) + n / 2 ^ k := by
  induction k with
  | zero =>
    intro n hn
    interval_cases n <;> simp [bitRev]
  | succ k ih =>
    intro n hn
    have hhalf : n / 2 < 2 ^ (k + 1) := by
      have : (2 : Nat) ^ (k + 1 + 1) = 2 * 2 ^ (k + 1) := by ring
      omega
    have hmodmod : n % 2 ^ (k + 1) % 2 = n % 2 :=
      Nat.mod_mod_of_dvd n (dvd_pow_self 2 (Nat.succ_ne_zero k))
    have hmoddiv : n % 2 ^ (k + 1) / 2 = n / 2 % 2 ^ k := by
      rw [show (2 : Nat) ^ (k + 1) = 2 * 2 ^ k by ring]
      exact Nat.mod_mul_right_div_self n 2 (2 ^ k)
    have hdivdiv : n / 2 ^ (k + 1) = n / 2 / 2 ^ k := by
      rw [Nat.div_div_eq_div_mul]
      congr 1
      ring
    calc bitRev (k + 1 + 1) n
        = (n % 2) * 2 ^ (k + 1) + bitRev (k + 1) (n / 2) := rfl
      _ = (n % 2) * 2 ^ (k + 1) + (2 * bitRev k (n / 2 % 2 ^ k) + n / 2 / 2 ^ k) := by
          rw [ih _ hhalf]
      _ = 2 * ((n % 2 ^ (k + 1) % 2) * 2 ^ k + bitRev k (n % 2 ^ (k + 1) / 2))
            + n / 2 ^ (k + 1) := by
          rw [hmodmod, hmoddiv, hdivdiv]
          ring
      _ = 2 * bitRev (k + 1) (n % 2 ^ (k + 1)) + n / 2 ^ (k + 1) := rfl

theorem bitRev_bitRev {k n : Nat} (h : n < 2 ^ k) : bitRev k (bitRev k n) = n := by
  induction k generalizing n with
  | zero =>
    simp [bitRev]
    omega
  | succ k ih =>
    have hr : bitRev k (n / 2) < 2 ^ k := bitRev_lt k (n / 2)
    have hhalf : n / 2 < 2 ^ k := by
      have : (2 : Nat) ^ (k + 1) = 2 * 2 ^ k := by ring
      omega
    have hv : bitRev (k + 1) n = (n % 2) * 2 ^ k + bitRev k (n / 2) := rfl
    have hvlt : bitRev (k + 1) n < 2 ^ (k + 1) := bitRev_lt _ _
    rw [bitRev_high_low k _ hvlt, hv]
    have h2 : n % 2 ≤ 1 := by omega
    have hmod : ((n % 2) * 2 ^ k + bitRev k (n / 2)) % 2 ^ k = bitRev k (n / 2) := by
      rw [Nat.add_mod, Nat.mul_mod_left]
      simp [Nat.mod_eq_of_lt hr]
    have hdiv : ((n % 2) * 2 ^ k + bitRev k (n / 2)) / 2 ^ k = n % 2 := by
      rw [Nat.mul_comm, Nat.mul_add_div (by positivity : 0 < 2 ^ k),
        Nat.div_eq_of_lt hr]
      omega
    rw [hmod, hdiv, ih hhalf]
    omega

theorem advanceTarget_zero_mask (t : Nat) : advanceTarget t 0 = t := by
  rw [advanceTarget]
  simp

/-- The bit-reversed-counter increment: one pass of the inner `while` loop of
`butterfly` turns the reversal of `p` into the reversal of `p + 1`. -/
theorem advanceTarget_bitRev :
    ∀ k, k ≤ 32 → ∀ p, p + 1 < 2 ^ k →
      advanceTarget (bitRev k p) (2 ^ (k - 1)) = bitRev k (p + 1) := by
  intro k
  induction k with
  | zero =>
    intro _ p hp
    simp at hp
  | succ k ih =>
    intro hk p hp
    have hpow : (2 : Nat) ^ (k + 1) = 2 * 2 ^ k := by ring
    rcases Nat.even_or_odd p with ⟨q, hq⟩ | ⟨q, hq⟩
    · -- p even: the mask bit of the reversed counter is clear; set it.
      rw [show p = 2 * q by omega]
      have hlt : bitRev k q < 2 ^ k := bitRev_lt k q
      have hand : bitRev k q &&& 2 ^ k = 0 := by
        have h0 := and_two_pow_of_lt (b := 0) (by norm_num) hlt
        simpa using h0
      rw [bitRev_two_mul, advanceTarget]
      simp only [Nat.add_sub_cancel]
      rw [if_neg (by simp [hand])]
      rw [lor_two_pow_of_lt hlt, bitRev_two_mul_add_one]
    · -- p odd: clear the mask bit, recurse one bit lower.
      rw [show p = 2 * q + 1 by omega]
      have hq1 : q + 1 < 2 ^ k := by omega
      have hk1 : 1 ≤ k := by
        by_contra hc
        have : k = 0 := by omega
        subst this
        simp at hq1
      have hlt : bitRev k q < 2 ^ k := bitRev_lt k q
      have ht : bitRev (k + 1) (2 * q + 1) = 2 ^ k + bitRev k q :=
        bitRev_two_mul_add_one k q
      have hand : (2 ^ k + bitRev k q) &&& 2 ^ k = 2 ^ k := by
        have h1 := and_two_pow_of_lt (b := 1) (le_refl 1) hlt
        simpa using h1
      have hclear : (2 ^ k + bitRev k q) &&& u32Not (2 ^ k) = bitRev k q :=
        and_u32Not_two_pow (by omega) hlt
      have hshift : (2 : Nat) ^ k >>> 1 = 2 ^ (k - 1) := by
        rw [Nat.shiftRight_eq_div_pow, pow_one]
        rw [show (2 : Nat) ^ k = 2 * 2 ^ (k - 1) by
          rw [← pow_succ']
          congr 1
          omega]
        omega
      rw [ht, advanceTarget]
      simp only [Nat.add_sub_cancel]
      rw [if_pos (by rw [hand]; positivity)]
      rw [hclear, hshift]
      rw [ih (by omega) q hq1]
      rw [show 2 * q + 1 + 1 = 2 * (q + 1) by ring, bitRev_two_mul]

theorem vecSwap_eq {α : Type} (l : List α) (i j : Nat) (hi : i < l.length)
    (hj : j < l.length) :
    vecSwap l i j = some ((l.set i l[j]).set j l[i]) := by
  unfold vecSwap
  rw [List.getElem?_eq_getElem hi, List.getElem?_eq_getElem hj]

/-- Loop invariant for `butterflyAux`: positions already passed hold the
bit-reversed data; the rest is untouched except where an earlier swap
already deposited the reversed value. -/
theorem butterflyAux_spec {α : Type} (K : Nat) (hK : K < 32) (x : List α) :
    ∀ (m pos target : Nat) (d : List α),
      d.length = 2 ^ K →
      pos + m = 2 ^ K →
      (pos < 2 ^ K → target = bitRev K pos) →
      (∀ i, i < 2 ^ K →
        d[i]? = if i < pos ∨ bitRev K i < pos then x[bitRev K i]? else x[i]?) →
      ∃ r, butterflyAux m pos target d = some r ∧ r.length = 2 ^ K ∧
        ∀ i, i < 2 ^ K → r[i]? = x[bitRev K i]? := by
  intro m
  induction m with
  | zero =>
    intro pos target d hd hpos _ hinv
    refine ⟨d, rfl, hd, fun i hi => ?_⟩
    rw [hinv i hi, if_pos (Or.inl (by omega))]
  | succ m ih =>
    intro pos target d hd hpos htarget hinv
    have hposlt : pos < 2 ^ K := by omega
    have hu : target = bitRev K pos := htarget hposlt
    have hult : target < 2 ^ K := hu ▸ bitRev_lt K pos
    have hrevpos : bitRev K target = pos := by
      rw [hu, bitRev_bitRev hposlt]
    -- the mask recomputed from the (length-preserved) data
    have hmask : ((2 : Nat) ^ K % 2 ^ 32) >>> 1 = 2 ^ K >>> 1 := by
      rw [Nat.mod_eq_of_lt (Nat.pow_lt_pow_right (by norm_num) hK)]
    have htarget' : ∀ t', t' = advanceTarget target (2 ^ K >>> 1) →
        pos + 1 < 2 ^ K → t' = bitRev K (pos + 1) := by
      intro t' ht' hlt
      have hK1 : 1 ≤ K := by
        by_contra hc
        have hK0 : K = 0 := by omega
        rw [hK0] at hlt
        omega
      have hshift : (2 : Nat) ^ K >>> 1 = 2 ^ (K - 1) := by
        rw [Nat.shiftRight_eq_div_pow, pow_one]
        rw [show (2 : Nat) ^ K = 2 * 2 ^ (K - 1) by
          rw [← pow_succ']
          congr 1
          omega]
        omega
      rw [ht', hu, hshift, advanceTarget_bitRev K (by omega) pos hlt]
    by_cases hswap : target > pos
    · -- swap branch
      have hppos : pos < d.length := by omega
      have hptar : target < d.length := by omega
      have hstep : (if target > pos then vecSwap d pos target else some d) =
          some ((d.set pos d[target]).set target d[pos]) := by
        rw [if_pos hswap, vecSwap_eq d pos target hppos hptar]
      have hD : ((d.set pos d[target]).set target d[pos]).length = 2 ^ K := by
        simp [hd]
      have hinv' : ∀ i, i < 2 ^ K →
          ((d.set pos d[target]).set target d[pos])[i]? =
            if i < pos + 1 ∨ bitRev K i < pos + 1 then x[bitRev K i]?
            else x[i]? := by
        intro i hi
        by_cases hieq : i = target
        · rw [hieq]
          have h1 : ((d.set pos d[target]).set target d[pos])[target]? =
              some (d[pos]) :=
            List.getElem?_set_self (by simp [hd]; omega)
          rw [h1, if_pos (Or.inr (by omega))]
          have hold := hinv pos hposlt
          rw [if_neg (by rw [← hu]; omega)] at hold
          rw [hrevpos, ← hold]
          exact (List.getElem?_eq_getElem hppos).symm
        · by_cases hipos : i = pos
          · rw [hipos]
            have hne : target ≠ pos := by omega
            have h1 : ((d.set pos d[target]).set target d[pos])[pos]? =
                some (d[target]) := by
              rw [List.getElem?_set_ne hne]
              exact List.getElem?_set_self hppos
            rw [h1, if_pos (Or.inl (by omega))]
            have hold := hinv target hult
            rw [if_neg (by rw [hrevpos]; omega)] at hold
            rw [← hu, ← hold]
            exact (List.getElem?_eq_getElem hptar).symm
          · have hne1 : (pos : Nat) ≠ i := fun hh => hipos hh.symm
            have hne2 : (target : Nat) ≠ i := fun hh => hieq hh.symm
            have h1 : ((d.set pos d[target]).set target d[pos])[i]? = d[i]? := by
              rw [List.getElem?_set_ne hne2, List.getElem?_set_ne hne1]
            rw [h1, hinv i hi]
            have hrevne : bitRev K i ≠ pos := by
              intro hh
              apply hieq
              have h2 : bitRev K (bitRev K i) = bitRev K pos := by rw [hh]
              rw [bitRev_bitRev hi, ← hu] at h2
              exact h2
            congr 1
            simp only [eq_iff_iff]
            omega
      obtain ⟨r, hr, hrl, hri⟩ := ih (pos + 1) (advanceTarget target (2 ^ K >>> 1))
        ((d.set pos d[target]).set target d[pos]) hD (by omega)
        (fun hlt => htarget' _ rfl hlt) hinv'
      refine ⟨r, ?_, hrl, hri⟩
      rw [butterflyAux, hstep]
      show butterflyAux m (pos + 1)
          (advanceTarget target
            ((((d.set pos d[target]).set target d[pos]).length % 2 ^ 32) >>> 1))
          ((d.set pos d[target]).set target d[pos]) = some r
      rw [hD, hmask]
      exact hr
    · -- no-swap branch
      have hinv' : ∀ i, i < 2 ^ K →
          d[i]? = if i < pos + 1 ∨ bitRev K i < pos + 1 then x[bitRev K i]?
            else x[i]? := by
        intro i hi
        by_cases hipos : i = pos
        · rw [hipos, if_pos (Or.inl (by omega))]
          have hold := hinv pos hposlt
          by_cases hup : target = pos
          · rw [if_neg (by rw [← hu]; omega)] at hold
            rw [hold]
            congr 1
            rw [← hu, hup]
          · have hulttpos : target < pos := by omega
            rw [if_pos (Or.inr (by rw [← hu]; omega))] at hold
            exact hold
        · rw [hinv i hi]
          by_cases hrevi : bitRev K i = pos
          · have hieq : i = target := by
              have h1 : bitRev K (bitRev K i) = bitRev K pos := by rw [hrevi]
              rw [bitRev_bitRev hi, ← hu] at h1
              exact h1
            rw [if_pos (Or.inl (by omega)), if_pos (Or.inl (by omega))]
          · congr 1
            simp only [eq_iff_iff]
            omega
      obtain ⟨r, hr, hrl, hri⟩ := ih (pos + 1) (advanceTarget target (2 ^ K >>> 1)) d
        hd (by omega) (fun hlt => htarget' _ rfl hlt) hinv'
      refine ⟨r, ?_, hrl, hri⟩
      rw [butterflyAux, if_neg hswap]
      show butterflyAux m (pos + 1)
          (advanceTarget target ((d.length % 2 ^ 32) >>> 1)) d = some r
      rw [hd, hmask]
      exact hr

/-- `butterfly` on a list of length `2 ^ K` (with `K < 32`, so that the
`u32` cast of the length is lossless) computes exactly the bit-reversal
permutation. -/
theorem butterfly_spec {α : Type} {K : Nat} (hK : K < 32) (x : List α)
    (hx : x.length = 2 ^ K) :
    ∃ r, butterfly x = some r ∧ r.length = 2 ^ K ∧
      ∀ i, i < 2 ^ K → r[i]? = x[bitRev K i]? := by
  have h0 := butterflyAux_spec K hK x (2 ^ K) 0 0 x hx (by omega)
    (fun _ => (bitRev_zero_right K).symm)
    (fun i hi => by rw [if_neg (by omega)])
  rw [butterfly, hx]
  exact h0

/-- When the truncated length yields a zero mask (in particular for lengths
that are multiples of `2 ^ 32`), `butterfly` never swaps: the counter stays
at `0`. -/
theorem butterflyAux_id {α : Type} :
    ∀ (m pos : Nat) (d : List α), d.length % 2 ^ 32 ≤ 1 →
      butterflyAux m pos 0 d = some d := by
  intro m
  induction m with
  | zero => intro pos d _; rfl
  | succ m ih =>
    intro pos d hlen
    rw [butterflyAux, if_neg (by omega)]
    have hmask : (d.length % 2 ^ 32) >>> 1 = 0 := by
      rw [Nat.shiftRight_eq_div_pow, pow_one]
      omega
    show butterflyAux m (pos + 1) (advanceTarget 0 ((d.length % 2 ^ 32) >>> 1)) d =
      some d
    rw [hmask, advanceTarget_zero_mask]
    exact ih (pos + 1) d hlen

theorem butterfly_id_of_truncated {α : Type} (x : List α)
    (h : x.length % 2 ^ 32 ≤ 1) : butterfly x = some x :=
  butterflyAux_id x.length 0 x h

end fft

namespace epicycle

theorem amplitudeDesc_trans (a b c : complex.Complex × Nat)
    (hab : amplitudeDesc a b = true) (hbc : amplitudeDesc b c = true) :
    amplitudeDesc a c = true := by
  simp only [amplitudeDesc, decide_eq_true_eq] at *
  exact le_trans hbc hab

theorem amplitudeDesc_total (a b : complex.Complex × Nat) :
    (amplitudeDesc a b || amplitudeDesc b a) = true := by
  simp only [amplitudeDesc, Bool.or_eq_true, decide_eq_true_eq]
  exact le_total (complex.Complex.amplitude b.1) (complex.Complex.amplitude a.1)

theorem Epicycle.new_length (input : List complex.Complex) :
    (Epicycle.new input).data.length = input.length := by
  simp [Epicycle.new, List.length_mergeSort, List.length_zip, List.length_range]

theorem Epicycle.new_perm (input : List complex.Complex) :
    (Epicycle.new input).data.Perm (input.zip (List.range input.length)) :=
  List.mergeSort_perm _ _

theorem Epicycle.new_pairwise (input : List complex.Complex) :
    (Epicycle.new input).data.Pairwise
      (fun a b => complex.Complex.amplitude b.1 ≤ complex.Complex.amplitude a.1) := by
  have h := List.sorted_mergeSort amplitudeDesc_trans amplitudeDesc_total
    (input.zip (List.range input.length))
  have h2 : ∀ a b : complex.Complex × Nat, amplitudeDesc a b = true →
      complex.Complex.amplitude b.1 ≤ complex.Complex.amplitude a.1 := by
    intro a b hab
    simpa [amplitudeDesc] using hab
  exact List.Pairwise.imp (h2 _ _) h

theorem Epicycle.new_sorted (input : List complex.Complex) :
    ∀ i j, i ≤ j → j < (Epicycle.new input).data.length →
      complex.Complex.amplitude ((Epicycle.new input).data.getD j pzero).1 ≤
        complex.Complex.amplitude ((Epicycle.new input).data.getD i pzero).1 := by
  intro i j hij hj
  rcases Nat.eq_or_lt_of_le hij with rfl | hlt
  · exact le_refl _
  · have hp := Epicycle.new_pairwise input
    rw [List.pairwise_iff_getElem] at hp
    have hi : i < (Epicycle.new input).data.length := lt_trans hlt hj
    have := hp i j hi hj hlt
    rw [List.getD_eq_getElem?_getD, List.getD_eq_getElem?_getD,
      List.getElem?_eq_getElem hi, List.getElem?_eq_getElem hj]
    exact this

/-- The accumulation loop adds, to the accumulators, the sums of the
`radius * cos/sin (frequency * time + phase)` terms, provided no radius is
below the `1E-9` early-exit threshold. -/
theorem coordLoop_sum (time : ℝ) :
    ∀ (l : List (complex.Complex × Nat)) (x0 y0 : ℝ),
      (∀ p ∈ l, 1e-9 ≤ complex.Complex.amplitude p.1) →
      coordLoop time l x0 y0 =
        (x0 + (l.map (fun p => complex.Complex.amplitude p.1 *
          Real.cos ((p.2 : ℝ) * time + complex.Complex.phase p.1))).sum,
         y0 + (l.map (fun p => complex.Complex.amplitude p.1 *
          Real.sin ((p.2 : ℝ) * time + complex.Complex.phase p.1))).sum) := by
  intro l
  induction l with
  | nil => intro x0 y0 _; simp [coordLoop]
  | cons hd tl ih =>
    intro x0 y0 hmem
    obtain ⟨c, f⟩ := hd
    have hc : 1e-9 ≤ complex.Complex.amplitude c := hmem (c, f) (by simp)
    rw [coordLoop, if_neg (by simp only [not_lt]; exact hc)]
    rw [ih _ _ (fun p hp => hmem p (List.mem_cons_of_mem _ hp))]
    simp only [List.map_cons, List.sum_cons]
    rw [Prod.mk.injEq]
    exact ⟨by ring, by ring⟩

/-- Sum of `f` over the first `n` entries of a list as a `Finset.range` sum. -/
theorem map_take_sum {β : Type} (f : β → ℝ) (d : β) :
    ∀ (l : List β) (n : Nat), n ≤ l.length →
      ((l.take n).map f).sum = ∑ i ∈ Finset.range n, f (l.getD i d) := by
  intro l
  induction l with
  | nil =>
    intro n hn
    have : n = 0 := by simpa using hn
    simp [this]
  | cons hd tl ih =>
    intro n hn
    cases n with
    | zero => simp
    | succ m =>
      rw [List.take_succ_cons, List.map_cons, List.sum_cons]
      rw [ih m (by simpa using hn)]
      rw [Finset.sum_range_succ']
      simp only [List.getD_cons_succ, List.getD_cons_zero]
      ring

end epicycle

namespace epicycle

theorem sqrt_sum_sq {a b : ℝ} (ha : 0 < a) :
    Real.sqrt (a * a + b * b) = Real.sqrt (1 + (b / a) ^ 2) * a := by
  rw [show a * a + b * b = (1 + (b / a) ^ 2) * a ^ 2 by field_simp; ring]
  rw [Real.sqrt_mul (by positivity) (a ^ 2), Real.sqrt_sq ha.le]

/-- The `x`-projection of one reconstruction term: for a coefficient with
positive real part, `amplitude * cos (phase) = re`. -/
theorem amp_cos_arctan {a b : ℝ} (ha : 0 < a) :
    Real.sqrt (a * a + b * b) * Real.cos (Real.arctan (b / a)) = a := by
  have hpos : (0 : ℝ) < Real.sqrt (1 + (b / a) ^ 2) :=
    Real.sqrt_pos.mpr (by positivity)
  rw [Real.cos_arctan, sqrt_sum_sq ha]
  field_simp

/-- The `y`-projection of one reconstruction term: for a coefficient with
positive real part, `amplitude * sin (phase) = im`. -/
theorem amp_sin_arctan {a b : ℝ} (ha : 0 < a) :
    Real.sqrt (a * a + b * b) * Real.sin (Real.arctan (b / a)) = b := by
  have hpos : (0 : ℝ) < Real.sqrt (1 + (b / a) ^ 2) :=
    Real.sqrt_pos.mpr (by positivity)
  rw [Real.sin_arctan, sqrt_sum_sq ha]
  field_simp

theorem amp11 : complex.Complex.amplitude (complex.Complex.new 1 1) = Real.sqrt 2 := by
  simp only [complex.Complex.amplitude, complex.Complex.new]
  norm_num

theorem amp34 : complex.Complex.amplitude (complex.Complex.new 3 4) = 5 := by
  simp only [complex.Complex.amplitude, complex.Complex.new]
  rw [show (3 : ℝ) * 3 + 4 * 4 = 5 ^ 2 by norm_num, Real.sqrt_sq (by norm_num)]

theorem amp56 : complex.Complex.amplitude (complex.Complex.new 5 6) = Real.sqrt 61 := by
  simp only [complex.Complex.amplitude, complex.Complex.new]
  norm_num

theorem sqrt2_lt_5 : Real.sqrt 2 < 5 := by
  rw [show (5 : ℝ) = Real.sqrt 25 by
    rw [show (25 : ℝ) = 5 ^ 2 by norm_num, Real.sqrt_sq (by norm_num)]]
  exact Real.sqrt_lt_sqrt (by norm_num) (by norm_num)

theorem five_lt_sqrt61 : (5 : ℝ) < Real.sqrt 61 := by
  rw [show (5 : ℝ) = Real.sqrt 25 by
    rw [show (25 : ℝ) = 5 ^ 2 by norm_num, Real.sqrt_sq (by norm_num)]]
  exact Real.sqrt_lt_sqrt (by norm_num) (by norm_num)

theorem sqrt2_lt_sqrt61 : Real.sqrt 2 < Real.sqrt 61 :=
  lt_trans sqrt2_lt_5 five_lt_sqrt61

/-- Concrete evaluation of the stable sort in `Epicycle::new` on the
three-sample input: descending amplitude `sqrt 61 > 5 > sqrt 2`. -/
theorem sample7_sorted :
    (Epicycle.new sample7).data =
      [(complex.Complex.new 5 6, 2), (complex.Complex.new 3 4, 1),
        (complex.Complex.new 1 1, 0)] := by
  have hzip : sample7.zip (List.range sample7.length) =
      [(complex.Complex.new 1 1, 0), (complex.Complex.new 3 4, 1),
        (complex.Complex.new 5 6, 2)] := rfl
  have h12 : amplitudeDesc (complex.Complex.new 1 1, 0) (complex.Complex.new 3 4, 1)
      = false := by
    simp only [amplitudeDesc, amp11, amp34]
    simp [sqrt2_lt_5.not_le]
  have h21 : amplitudeDesc (complex.Complex.new 3 4, 1) (complex.Complex.new 1 1, 0)
      = true := by
    simp only [amplitudeDesc, amp11, amp34]
    simp [sqrt2_lt_5.le]
  have h13 : amplitudeDesc (complex.Complex.new 1 1, 0) (complex.Complex.new 5 6, 2)
      = false := by
    simp only [amplitudeDesc, amp11, amp56]
    simp [sqrt2_lt_sqrt61.not_le]
  have h31 : amplitudeDesc (complex.Complex.new 5 6, 2) (complex.Complex.new 1 1, 0)
      = true := by
    simp only [amplitudeDesc, amp11, amp56]
    simp [sqrt2_lt_sqrt61.le]
  have h23 : amplitudeDesc (complex.Complex.new 3 4, 1) (complex.Complex.new 5 6, 2)
      = false := by
    simp only [amplitudeDesc, amp34, amp56]
    simp [five_lt_sqrt61.not_le]
  have h32 : amplitudeDesc (complex.Complex.new 5 6, 2) (complex.Complex.new 3 4, 1)
      = true := by
    simp only [amplitudeDesc, amp34, amp56]
    simp [five_lt_sqrt61.le]
  show (sample7.zip (List.range sample7.length)).mergeSort amplitudeDesc = _
  rw [hzip]
  simp [List.mergeSort, List.merge, h12, h21, h13, h31, h23, h32]

end epicycle

namespace epicycle

theorem term56x :
    complex.Complex.amplitude (complex.Complex.new 5 6) *
      Real.cos (((2 : ℕ) : ℝ) * Real.pi +
        complex.Complex.phase (complex.Complex.new 5 6)) = 5 := by
  simp only [complex.Complex.amplitude, complex.Complex.phase, complex.Complex.new,
    Nat.cast_ofNat]
  rw [show (2 : ℝ) * Real.pi + Real.arctan (6 / 5) =
    Real.arctan (6 / 5) + 2 * Real.pi by ring]
  rw [Real.cos_add_two_pi]
  exact amp_cos_arctan (by norm_num)

theorem term56y :
    complex.Complex.amplitude (complex.Complex.new 5 6) *
      Real.sin (((2 : ℕ) : ℝ) * Real.pi +
        complex.Complex.phase (complex.Complex.new 5 6)) = 6 := by
  simp only [complex.Complex.amplitude, complex.Complex.phase, complex.Complex.new,
    Nat.cast_ofNat]
  rw [show (2 : ℝ) * Real.pi + Real.arctan (6 / 5) =
    Real.arctan (6 / 5) + 2 * Real.pi by ring]
  rw [Real.sin_add_two_pi]
  exact amp_sin_arctan (by norm_num)

theorem term34x :
    complex.Complex.amplitude (complex.Complex.new 3 4) *
      Real.cos (((1 : ℕ) : ℝ) * Real.pi +
        complex.Complex.phase (complex.Complex.new 3 4)) = -3 := by
  simp only [complex.Complex.amplitude, complex.Complex.phase, complex.Complex.new,
    Nat.cast_one]
  rw [show (1 : ℝ) * Real.pi + Real.arctan (4 / 3) =
    Real.arctan (4 / 3) + Real.pi by ring]
  rw [Real.cos_add_pi, mul_neg]
  rw [amp_cos_arctan (by norm_num : (0 : ℝ) < 3)]

theorem term34y :
    complex.Complex.amplitude (complex.Complex.new 3 4) *
      Real.sin (((1 : ℕ) : ℝ) * Real.pi +
        complex.Complex.phase (complex.Complex.new 3 4)) = -4 := by
  simp only [complex.Complex.amplitude, complex.Complex.phase, complex.Complex.new,
    Nat.cast_one]
  rw [show (1 : ℝ) * Real.pi + Real.arctan (4 / 3) =
    Real.arctan (4 / 3) + Real.pi by ring]
  rw [Real.sin_add_pi, mul_neg]
  rw [amp_sin_arctan (by norm_num : (0 : ℝ) < 3)]

theorem term11x :
    complex.Complex.amplitude (complex.Complex.new 1 1) *
      Real.cos (((0 : ℕ) : ℝ) * Real.pi +
        complex.Complex.phase (complex.Complex.new 1 1)) = 1 := by
  simp only [complex.Complex.amplitude, complex.Complex.phase, complex.Complex.new,
    Nat.cast_zero, zero_mul, zero_add]
  exact amp_cos_arctan (by norm_num)

theorem term11y :
    complex.Complex.amplitude (complex.Complex.new 1 1) *
      Real.sin (((0 : ℕ) : ℝ) * Real.pi +
        complex.Complex.phase (complex.Complex.new 1 1)) = 1 := by
  simp only [complex.Complex.amplitude, complex.Complex.phase, complex.Complex.new,
    Nat.cast_zero, zero_mul, zero_add]
  exact amp_sin_arctan (by norm_num)

theorem radius56_big : ¬ complex.Complex.amplitude (complex.Complex.new 5 6) < 1e-9 := by
  rw [amp56]
  push_neg
  calc (1e-9 : ℝ) ≤ 5 := by norm_num
    _ ≤ Real.sqrt 61 := five_lt_sqrt61.le

theorem radius34_big : ¬ complex.Complex.amplitude (complex.Complex.new 3 4) < 1e-9 := by
  rw [amp34]
  norm_num

theorem radius11_big : ¬ complex.Complex.amplitude (complex.Complex.new 1 1) < 1e-9 := by
  rw [amp11]
  push_neg
  calc (1e-9 : ℝ) ≤ 1 := by norm_num
    _ ≤ Real.sqrt 2 := by
      rw [show (1 : ℝ) = Real.sqrt 1 from Real.sqrt_one.symm]
      exact Real.sqrt_le_sqrt (by norm_num)

/-- Exact value of the reconstruction at time `pi` with precision 1. -/
theorem coord7_1 :
    (Epicycle.new sample7).get_coordinate_for Real.pi 1 =
      .ok ⟨5, 6⟩ := by
  unfold Epicycle.get_coordinate_for
  rw [sample7_sorted]
  rw [if_neg (by simp)]
  rw [show List.take 1 [(complex.Complex.new 5 6, 2), (complex.Complex.new 3 4, 1),
      (complex.Complex.new 1 1, 0)] = [(complex.Complex.new 5 6, 2)] from rfl]
  simp only [coordLoop, if_neg radius56_big]
  rw [Except.ok.injEq, Coordinate.mk.injEq]
  constructor
  · rw [zero_add, term56x]
  · rw [zero_add, term56y]

/-- Exact value of the reconstruction at time `pi` with precision 2. -/
theorem coord7_2 :
    (Epicycle.new sample7).get_coordinate_for Real.pi 2 =
      .ok ⟨2, 2⟩ := by
  unfold Epicycle.get_coordinate_for
  rw [sample7_sorted]
  rw [if_neg (by simp)]
  rw [show List.take 2 [(complex.Complex.new 5 6, 2), (complex.Complex.new 3 4, 1),
      (complex.Complex.new 1 1, 0)] =
      [(complex.Complex.new 5 6, 2), (complex.Complex.new 3 4, 1)] from rfl]
  simp only [coordLoop, if_neg radius56_big, if_neg radius34_big]
  rw [Except.ok.injEq, Coordinate.mk.injEq]
  constructor
  · rw [zero_add, term56x, term34x]
    norm_num
  · rw [zero_add, term56y, term34y]
    norm_num

/-- Exact value of the reconstruction at time `pi` with precision 3. -/
theorem coord7_3 :
    (Epicycle.new sample7).get_coordinate_for Real.pi 3 =
      .ok ⟨3, 3⟩ := by
  unfold Epicycle.get_coordinate_for
  rw [sample7_sorted]
  rw [if_neg (by simp)]
  rw [show List.take 3 [(complex.Complex.new 5 6, 2), (complex.Complex.new 3 4, 1),
      (complex.Complex.new 1 1, 0)] =
      [(complex.Complex.new 5 6, 2), (complex.Complex.new 3 4, 1),
        (complex.Complex.new 1 1, 0)] from rfl]
  simp only [coordLoop, if_neg radius56_big, if_neg radius34_big, if_neg radius11_big]
  rw [Except.ok.injEq, Coordinate.mk.injEq]
  constructor
  · rw [zero_add, term56x, term34x, term11x]
    norm_num
  · rw [zero_add, term56y, term34y, term11y]
    norm_num

end epicycle

namespace fft

theorem getElem?_eq_getD {α : Type} {l : List α} {i : Nat} (d : α) (h : i < l.length) :
    l[i]? = some (l.getD i d) := by
  rw [List.getElem?_eq_getElem h, List.getD_eq_getElem?_getD,
    List.getElem?_eq_getElem h]
  rfl

theorem getD_set_self {α : Type} {l : List α} {i : Nat} (d v : α) (h : i < l.length) :
    (l.set i v).getD i d = v := by
  rw [List.getD_eq_getElem?_getD, List.getElem?_set_self h]
  rfl

theorem getD_set_ne {α : Type} {l : List α} {i j : Nat} (d v : α) (h : i ≠ j) :
    (l.set i v).getD j d = l.getD j d := by
  rw [List.getD_eq_getElem?_getD, List.getElem?_set_ne h,
    ← List.getD_eq_getElem?_getD]

theorem ge_add_period {jump b q : Nat} (hmod : q % jump = b % jump)
    (hle : b ≤ q) (hne : q ≠ b) : b + jump ≤ q := by
  rcases Nat.eq_zero_or_pos jump with rfl | hj
  · simp only [Nat.mod_zero] at hmod
    omega
  · have hdvd : jump ∣ q - b := (Nat.modEq_iff_dvd' hle).mp hmod.symm
    have hgt := Nat.le_of_dvd (by omega) hdvd
    omega

theorem matched_lt {step jump n a : Nat} (hstep : 0 < step) (hjump : jump = 2 * step)
    (hdvd : jump ∣ n) (ha : a < n) (hres : a % jump < step) : a + step < n := by
  obtain ⟨t, rfl⟩ := hdvd
  have hj : 0 < jump := by omega
  have h1 := Nat.div_add_mod a jump
  have h2 : a / jump < t := by
    by_contra hc
    push_neg at hc
    have h3 : jump * t ≤ jump * (a / jump) := Nat.mul_le_mul_left _ hc
    omega
  have h4 : jump * (a / jump) + jump ≤ jump * t := by
    calc jump * (a / jump) + jump = jump * (a / jump + 1) := by ring
      _ ≤ jump * t := Nat.mul_le_mul_left _ h2
  omega

theorem add_step_mod {step jump a : Nat} (hjump : jump = 2 * step)
    (hres : a % jump < step) : (a + step) % jump = a % jump + step := by
  have hstep : 0 < step := by omega
  have hsj : step < jump := by omega
  rw [Nat.add_mod, Nat.mod_eq_of_lt hsj, Nat.mod_eq_of_lt (by omega)]

theorem fftPairs_stop {step jump : Nat} (f : complex.Complex) (a : Nat)
    (data : List complex.Complex) (hj : jump ≠ 0) (ha : ¬ a < data.length) :
    fftPairs step jump f a data = some data := by
  rw [fftPairs, if_neg hj, dif_neg ha]

theorem fftPairs_cons {step jump : Nat} (f : complex.Complex) (a : Nat)
    (data : List complex.Complex) (hj : jump ≠ 0) (ha : a < data.length)
    (hmat : a + step < data.length) :
    fftPairs step jump f a data =
      fftPairs step jump f (a + jump)
        ((data.set (a + step)
          (complex.Complex.minus (data.getD a czero)
            (complex.Complex.multiply f (data.getD (a + step) czero)))).set a
          (complex.Complex.add (data.getD a czero)
            (complex.Complex.multiply f (data.getD (a + step) czero)))) := by
  conv_lhs => rw [fftPairs]
  rw [if_neg hj, dif_pos ha]
  simp only []
  rw [getElem?_eq_getD czero hmat, getElem?_eq_getD czero ha]

/-- Effect of the inner pair loop of `fft`, starting at `a`, on every index:
indices congruent to `a` (from `a` on) receive the `add` butterfly output,
their partners the `minus` output, and all others are untouched. -/
theorem fftPairs_spec {step jump n : Nat} (hstep : 0 < step) (hjump : jump = 2 * step)
    (hdvd : jump ∣ n) (f : complex.Complex) :
    ∀ (m a : Nat) (data : List complex.Complex), data.length = n → n ≤ a + m →
      a % jump < step →
      ∃ r, fftPairs step jump f a data = some r ∧ r.length = n ∧
        ∀ q, q < n →
          r.getD q czero =
            if q % jump = a % jump ∧ a ≤ q then
              complex.Complex.add (data.getD q czero)
                (complex.Complex.multiply f (data.getD (q + step) czero))
            else if q % jump = a % jump + step ∧ a + step ≤ q then
              complex.Complex.minus (data.getD (q - step) czero)
                (complex.Complex.multiply f (data.getD q czero))
            else data.getD q czero := by
  have hj0 : jump ≠ 0 := by omega
  intro m
  induction m with
  | zero =>
    intro a data hd hm hres
    refine ⟨data, ?_, hd, fun q hq => ?_⟩
    · exact fftPairs_stop f a data hj0 (by omega)
    · rw [if_neg (fun hco => absurd hco.2 (by omega)),
        if_neg (fun hco => absurd hco.2 (by omega))]
  | succ m ih =>
    intro a data hd hm hres
    by_cases halt : a < n
    · have hmat : a + step < n := matched_lt hstep hjump hdvd halt hres
      have hsmod : (a + step) % jump = a % jump + step := add_step_mod hjump hres
      have hajump : (a + jump) % jump = a % jump := Nat.add_mod_right a jump
      obtain ⟨r, hr, hrl, hrc⟩ := ih (a + jump)
        ((data.set (a + step)
          (complex.Complex.minus (data.getD a czero)
            (complex.Complex.multiply f (data.getD (a + step) czero)))).set a
          (complex.Complex.add (data.getD a czero)
            (complex.Complex.multiply f (data.getD (a + step) czero))))
        (by simp [hd]) (by omega) (by rw [hajump]; exact hres)
      refine ⟨r, ?_, hrl, fun q hq => ?_⟩
      · rw [fftPairs_cons f a data hj0 (by omega) (by omega)]
        exact hr
      · by_cases hc1 : q % jump = a % jump ∧ a ≤ q
        · rw [if_pos hc1]
          by_cases hqa : q = a
          · subst hqa
            rw [hrc q hq, if_neg (fun hco => absurd hco.2 (by omega)),
              if_neg (fun hco => absurd hco.2 (by omega))]
            rw [getD_set_self czero _ (by simp [hd]; omega)]
          · have hge : a + jump ≤ q := ge_add_period hc1.1 hc1.2 hqa
            rw [hrc q hq, if_pos ⟨by rw [hajump]; exact hc1.1, hge⟩]
            rw [getD_set_ne czero _ (by omega), getD_set_ne czero _ (by omega),
              getD_set_ne czero _ (by omega), getD_set_ne czero _ (by omega)]
        · by_cases hc2 : q % jump = a % jump + step ∧ a + step ≤ q
          · rw [if_neg hc1, if_pos hc2]
            by_cases hqa : q = a + step
            · subst hqa
              rw [hrc (a + step) hq,
                if_neg (fun hco => absurd hco.1 (by rw [hajump, hsmod]; omega)),
                if_neg (fun hco => absurd hco.2 (by omega))]
              rw [getD_set_ne czero _ (by omega),
                getD_set_self czero _ (by simp [hd]; omega)]
              rw [Nat.add_sub_cancel]
            · have hge : a + step + jump ≤ q :=
                ge_add_period (by rw [hsmod]; exact hc2.1) hc2.2 hqa
              rw [hrc q hq,
                if_neg (fun hco => absurd hco.1 (by rw [hajump]; omega)),
                if_pos ⟨by rw [hajump]; exact hc2.1, by omega⟩]
              rw [getD_set_ne czero _ (by omega), getD_set_ne czero _ (by omega),
                getD_set_ne czero _ (by omega), getD_set_ne czero _ (by omega)]
          · rw [if_neg hc1, if_neg hc2, hrc q hq,
              if_neg (fun hco => hc1 ⟨by rw [← hajump]; exact hco.1, by omega⟩),
              if_neg (fun hco => hc2 ⟨by rw [← hajump]; exact hco.1, by omega⟩)]
            have hqa : q ≠ a := fun h => hc1 ⟨by rw [h], by omega⟩
            have hqas : q ≠ a + step := fun h => hc2 ⟨by rw [h]; exact hsmod, by omega⟩
            rw [getD_set_ne czero _ (fun h => hqa h.symm),
              getD_set_ne czero _ (fun h => hqas h.symm)]
    · refine ⟨data, ?_, hd, fun q hq => ?_⟩
      · exact fftPairs_stop f a data hj0 (by omega)
      · rw [if_neg (fun hco => absurd hco.2 (by omega)),
          if_neg (fun hco => absurd hco.2 (by omega))]

end fft

namespace fft

theorem sub_step_mod {step jump q s : Nat} (hj : 0 < jump) (hs : step ≤ s)
    (hslt : s < jump) (hmod : q % jump = s) : (q - step) % jump = s - step := by
  have h1 := Nat.div_add_mod q jump
  have h2 : q - step = jump * (q / jump) + (s - step) := by omega
  rw [h2, Nat.mul_add_mod, Nat.mod_eq_of_lt (by omega)]

/-- Effect of the whole `for group in 0..step` loop of a stage (run up to
group `G`): the accumulated factor is `factorIter fm G`, residues below `G`
hold `add` outputs, residues in `[step, step + G)` hold `minus` outputs, and
everything else is untouched. -/
theorem fftGroups_spec {step jump n : Nat} (hstep : 0 < step) (hjump : jump = 2 * step)
    (hdvd : jump ∣ n) (fm : complex.Complex) :
    ∀ (G : Nat), G ≤ step → ∀ (data : List complex.Complex), data.length = n →
      ∃ r, (List.range G).foldlM
          (fun (st : complex.Complex × List complex.Complex) group => do
            let d ← fftPairs step jump st.1 group st.2
            pure (complex.Complex.add (complex.Complex.multiply fm st.1) st.1, d))
          (complex.Complex.new 1 0, data) = some (factorIter fm G, r) ∧
        r.length = n ∧
        ∀ q, q < n →
          r.getD q czero =
            if q % jump < G then
              complex.Complex.add (data.getD q czero)
                (complex.Complex.multiply (factorIter fm (q % jump))
                  (data.getD (q + step) czero))
            else if step ≤ q % jump ∧ q % jump < step + G then
              complex.Complex.minus (data.getD (q - step) czero)
                (complex.Complex.multiply (factorIter fm (q % jump - step))
                  (data.getD q czero))
            else data.getD q czero := by
  have hj0 : 0 < jump := by omega
  intro G
  induction G with
  | zero =>
    intro _ data hd
    refine ⟨data, ?_, hd, fun q hq => ?_⟩
    · rfl
    · rw [if_neg (by omega), if_neg (fun hco => by omega)]
  | succ G ih =>
    intro hG data hd
    obtain ⟨rG, hrG, hrGl, hrGc⟩ := ih (by omega) data hd
    have hGmod : G % jump = G := Nat.mod_eq_of_lt (by omega)
    obtain ⟨r, hr, hrl, hrc⟩ := fftPairs_spec hstep hjump hdvd (factorIter fm G)
      n G rG hrGl (by omega) (by rw [hGmod]; omega)
    refine ⟨r, ?_, hrl, fun q hq => ?_⟩
    · rw [List.range_succ, List.foldlM_append, hrG]
      simp only [Option.bind_eq_bind, Option.some_bind, List.foldlM_cons,
        List.foldlM_nil, hr]
      rfl
    · have hql : q % jump < jump := Nat.mod_lt _ hj0
      have hqle : q % jump ≤ q := Nat.mod_le _ _
      rw [hrc q hq, hGmod]
      by_cases hA : q % jump < G
      · rw [if_neg (by omega), if_neg (fun hco => by omega),
          hrGc q hq, if_pos (by omega), if_pos (by omega)]
      · by_cases hB : q % jump = G
        · have hqs : q + step < n :=
            matched_lt hstep hjump hdvd hq (by omega)
          have hqsmod : (q + step) % jump = q % jump + step :=
            add_step_mod hjump (by omega)
          rw [if_pos (by omega), if_pos (by omega)]
          rw [hrGc q hq, if_neg (by omega), if_neg (fun hco => by omega)]
          rw [hrGc (q + step) hqs, hqsmod,
            if_neg (by omega), if_neg (fun hco => by omega)]
          rw [hB]
        · by_cases hC : step ≤ q % jump ∧ q % jump < step + G
          · rw [if_neg (by omega), if_neg (fun hco => by omega),
              hrGc q hq, if_neg (by omega), if_pos (by omega),
              if_neg (by omega), if_pos (by omega)]
          · by_cases hD : q % jump = step + G
            · have hsub : (q - step) % jump = q % jump - step :=
                sub_step_mod hj0 (by omega) hql rfl
              rw [if_neg (by omega), if_pos (by omega)]
              rw [hrGc q hq, if_neg (by omega), if_neg (fun hco => by omega)]
              rw [hrGc (q - step) (by omega), hsub,
                if_neg (by omega), if_neg (fun hco => by omega)]
              rw [if_neg (by omega), if_pos (by omega),
                show q % jump - step = G by omega]
            · rw [if_neg (by omega), if_neg (fun hco => by omega),
                hrGc q hq, if_neg (by omega), if_neg (fun hco => by omega),
                if_neg (by omega), if_neg (fun hco => by omega)]

end fft

namespace fft

/-- Characterization of one full stage of `fft`: every index with residue
below `step` (mod `2 * step`) receives the `add` butterfly output with the
twiddle `factorIter (stageFm step) (residue)`, its partner the `minus`
output. -/
theorem fftStage_spec {step n : Nat} (hstep : 0 < step) (hdvd : 2 * step ∣ n)
    (data : List complex.Complex) (hd : data.length = n) :
    ∃ r, fftStage step data = some r ∧ r.length = n ∧
      ∀ q, q < n →
        r.getD q czero =
          if q % (2 * step) < step then
            complex.Complex.add (data.getD q czero)
              (complex.Complex.multiply (factorIter (stageFm step) (q % (2 * step)))
                (data.getD (q + step) czero))
          else
            complex.Complex.minus (data.getD (q - step) czero)
              (complex.Complex.multiply
                (factorIter (stageFm step) (q % (2 * step) - step))
                (data.getD q czero)) := by
  have hsh : step <<< 1 = 2 * step := by
    rw [Nat.shiftLeft_eq, pow_one]
    ring
  obtain ⟨r, hr, hrl, hrc⟩ :=
    fftGroups_spec hstep hsh (by rw [hsh]; exact hdvd) (stageFm step) step
      le_rfl data hd
  rw [hsh] at hrc
  refine ⟨r, ?_, hrl, fun q hq => ?_⟩
  · have hst : fftStage step data = Option.map Prod.snd
        ((List.range step).foldlM
          (fun (st : complex.Complex × List complex.Complex) group => do
            let d ← fftPairs step (step <<< 1) st.1 group st.2
            pure (complex.Complex.add
              (complex.Complex.multiply (stageFm step) st.1) st.1, d))
          (complex.Complex.new 1 0, data)) := rfl
    rw [hst, hr]
    rfl
  · have hql : q % (2 * step) < 2 * step := Nat.mod_lt _ (by omega)
    rw [hrc q hq]
    by_cases hA : q % (2 * step) < step
    · rw [if_pos hA, if_pos hA]
    · rw [if_neg hA, if_pos (by omega), if_neg hA]

end fft

namespace fft

theorem twiddle_pow (N e : Nat) :
    twiddle N ^ e = Complex.exp (-(2 * Real.pi * (e : ℝ) / (N : ℝ)) * Complex.I) := by
  rw [twiddle, ← Complex.exp_nat_mul]
  congr 1
  push_cast
  ring

theorem twiddle_sq {M : Nat} (hM : 0 < M) : twiddle (2 * M) ^ 2 = twiddle M := by
  rw [twiddle_pow, twiddle]
  congr 1
  have hM' : (M : ℝ) ≠ 0 := Nat.cast_ne_zero.mpr hM.ne'
  push_cast
  field_simp
  ring

theorem twiddle_pow_self {M : Nat} (hM : 0 < M) : twiddle M ^ M = 1 := by
  have hMc : (M : ℂ) ≠ 0 := Nat.cast_ne_zero.mpr hM.ne'
  calc twiddle M ^ M
      = Complex.exp (((-1 : ℤ) : ℂ) * (2 * (Real.pi : ℂ) * Complex.I)) := by
        rw [twiddle_pow]
        congr 1
        push_cast
        field_simp
    _ = 1 := Complex.exp_int_mul_two_pi_mul_I (-1)

theorem twiddle_half {M : Nat} (hM : 0 < M) : twiddle (2 * M) ^ M = -1 := by
  have hMc : (M : ℂ) ≠ 0 := Nat.cast_ne_zero.mpr hM.ne'
  have h1 : twiddle (2 * M) ^ M = Complex.exp (-((Real.pi : ℂ) * Complex.I)) := by
    rw [twiddle_pow]
    congr 1
    push_cast
    field_simp
    ring
  rw [h1, Complex.exp_neg, Complex.exp_pi_mul_I]
  norm_num

theorem toC_factorIter {fm : complex.Complex} {w : ℂ}
    (hw : complex.Complex.toC fm + 1 = w) :
    ∀ g, complex.Complex.toC (factorIter fm g) = w ^ g := by
  intro g
  induction g with
  | zero =>
    simp [factorIter, complex.Complex.toC, complex.Complex.new]
    rfl
  | succ g ih =>
    rw [factorIter, complex.Complex.toC_add, complex.Complex.toC_multiply, ih,
      pow_succ]
    rw [← hw]
    ring

/-- The incremental twiddle recurrence is exact: the seed `factor_multiplier`
satisfies `fm + 1 = exp(-i*pi/step) = twiddle (2*step)`. -/
theorem stageFm_toC {step : Nat} (hstep : 0 < step) :
    complex.Complex.toC (stageFm step) + 1 = twiddle (2 * step) := by
  have hs' : ((step : ℝ)) ≠ 0 := Nat.cast_ne_zero.mpr hstep.ne'
  have hsc : ((step : ℂ)) ≠ 0 := Nat.cast_ne_zero.mpr hstep.ne'
  have hT : twiddle (2 * step) =
      Complex.exp (((-1 * Real.pi / (step : ℝ) : ℝ) : ℂ) * Complex.I) := by
    rw [twiddle]
    congr 1
    push_cast
    field_simp
    ring
  have hcos : Real.cos (-1 * Real.pi / (step : ℝ)) =
      1 + -2 * Real.sin (-1 * Real.pi / (step : ℝ) * 0.5) *
        Real.sin (-1 * Real.pi / (step : ℝ) * 0.5) := by
    have h2 : -1 * Real.pi / (step : ℝ) =
        2 * (-1 * Real.pi / (step : ℝ) * 0.5) := by ring
    conv_lhs => rw [h2]
    rw [Real.cos_two_mul']
    have h3 := Real.sin_sq_add_cos_sq (-1 * Real.pi / (step : ℝ) * 0.5)
    nlinarith [h3]
  apply Complex.ext
  · rw [hT, Complex.exp_ofReal_mul_I_re]
    simp only [Complex.add_re, Complex.one_re, complex.Complex.toC, stageFm,
      complex.Complex.new]
    rw [hcos]
    ring
  · rw [hT, Complex.exp_ofReal_mul_I_im]
    simp [complex.Complex.toC, stageFm, complex.Complex.new]

end fft

namespace fft

theorem getc_def (l : List complex.Complex) (i : Nat) :
    getc l i = complex.Complex.toC (l.getD i czero) := rfl

theorem sum_range_two_mul {β : Type} [AddCommMonoid β] (M : Nat) (f : Nat → β) :
    ∑ t ∈ Finset.range (2 * M), f t =
      ∑ u ∈ Finset.range M, (f (2 * u) + f (2 * u + 1)) := by
  induction M with
  | zero => simp
  | succ M ih =>
    rw [show 2 * (M + 1) = 2 * M + 1 + 1 by ring, Finset.sum_range_succ,
      Finset.sum_range_succ, ih, Finset.sum_range_succ, add_assoc]

/-- Decimation-in-time recombination, `add` side: the order-`2M` exponential
sum at frequency `j` splits into even and odd subsums at order `M`. -/
theorem dft_combine_pair (Y : Nat → ℂ) (M S R j : Nat) (hM : 0 < M) :
    ∑ t ∈ Finset.range (2 * M), Y (t * S + R) * twiddle (2 * M) ^ (j * t) =
      (∑ t ∈ Finset.range M, Y (t * (2 * S) + R) * twiddle M ^ (j * t)) +
        twiddle (2 * M) ^ j *
          ∑ t ∈ Finset.range M, Y (t * (2 * S) + (S + R)) * twiddle M ^ (j * t) := by
  rw [sum_range_two_mul, Finset.mul_sum, ← Finset.sum_add_distrib]
  apply Finset.sum_congr rfl
  intro u _
  have hpe : twiddle (2 * M) ^ (j * (2 * u)) = twiddle M ^ (j * u) := by
    rw [show j * (2 * u) = 2 * (j * u) by ring, pow_mul, twiddle_sq hM]
  have hpo : twiddle (2 * M) ^ (j * (2 * u + 1)) =
      twiddle M ^ (j * u) * twiddle (2 * M) ^ j := by
    rw [show j * (2 * u + 1) = 2 * (j * u) + j by ring, pow_add, pow_mul,
      twiddle_sq hM]
  rw [show 2 * u * S + R = u * (2 * S) + R by ring,
    show (2 * u + 1) * S + R = u * (2 * S) + (S + R) by ring, hpe, hpo]
  ring

/-- Decimation-in-time recombination, `minus` side: at frequency
`j ∈ [M, 2M)` the odd subsum enters with a minus sign. -/
theorem dft_combine_matched (Y : Nat → ℂ) (M S R : Nat) (hM : 0 < M)
    (j : Nat) (hge : M ≤ j) :
    ∑ t ∈ Finset.range (2 * M), Y (t * S + R) * twiddle (2 * M) ^ (j * t) =
      (∑ t ∈ Finset.range M, Y (t * (2 * S) + R) * twiddle M ^ ((j - M) * t)) -
        twiddle (2 * M) ^ (j - M) *
          ∑ t ∈ Finset.range M, Y (t * (2 * S) + (S + R)) *
            twiddle M ^ ((j - M) * t) := by
  obtain ⟨j', rfl⟩ : ∃ j', j = j' + M := ⟨j - M, by omega⟩
  rw [Nat.add_sub_cancel]
  rw [sum_range_two_mul, Finset.mul_sum, ← Finset.sum_sub_distrib]
  apply Finset.sum_congr rfl
  intro u _
  have hMM : twiddle M ^ (M * u) = 1 := by
    rw [pow_mul, twiddle_pow_self hM, one_pow]
  have hpe : twiddle (2 * M) ^ ((j' + M) * (2 * u)) = twiddle M ^ (j' * u) := by
    rw [show (j' + M) * (2 * u) = 2 * (j' * u + M * u) by ring, pow_mul,
      twiddle_sq hM, pow_add, hMM, mul_one]
  have hpo : twiddle (2 * M) ^ ((j' + M) * (2 * u + 1)) =
      -(twiddle M ^ (j' * u) * twiddle (2 * M) ^ j') := by
    rw [show (j' + M) * (2 * u + 1) = 2 * (j' * u + M * u) + j' + M by ring]
    rw [pow_add, pow_add, pow_mul, twiddle_sq hM, twiddle_half hM]
    rw [pow_add, hMM, mul_one]
    ring
  rw [show 2 * u * S + R = u * (2 * S) + R by ring,
    show (2 * u + 1) * S + R = u * (2 * S) + (S + R) by ring, hpe, hpo]
  ring

end fft

namespace fft

/-- Correctness of the stage loop of `fft`: starting from a state whose
order-`2^s` sub-blocks already hold order-`2^s` exponential sums of `Y`
(the standard decimation-in-time invariant), running the remaining stages
produces the order-`2^k` exponential sums of `Y`. -/
theorem fftStages_spec (Y : Nat → ℂ) (k : Nat) :
    ∀ (m s : Nat) (data : List complex.Complex), s + m = k → data.length = 2 ^ k →
      (∀ p, p < 2 ^ k → getc data p =
        ∑ t ∈ Finset.range (2 ^ s),
          Y (t * 2 ^ (k - s) + bitRev (k - s) (p / 2 ^ s)) *
            twiddle (2 ^ s) ^ ((p % 2 ^ s) * t)) →
      ∃ r, fftStages (2 ^ k) (2 ^ s) data = some r ∧ r.length = 2 ^ k ∧
        ∀ p, p < 2 ^ k → getc r p =
          ∑ t ∈ Finset.range (2 ^ k), Y t * twiddle (2 ^ k) ^ (p * t) := by
  intro m
  induction m with
  | zero =>
    intro s data hsk hd hinv
    have hs : s = k := by omega
    subst hs
    refine ⟨data, ?_, hd, fun p hp => ?_⟩
    · rw [fftStages, dif_neg (fun h => absurd h.2 (lt_irrefl _))]
    · rw [hinv p hp, Nat.sub_self, Nat.mod_eq_of_lt hp]
      apply Finset.sum_congr rfl
      intro t _
      congr 2
      simp [bitRev]
  | succ m ih =>
    intro s data hsk hd hinv
    have hstep : (0 : Nat) < 2 ^ s := by positivity
    have hj2 : (2 : Nat) ^ (s + 1) = 2 * 2 ^ s := pow_succ' 2 s
    have hdvd : 2 * 2 ^ s ∣ 2 ^ k := by
      rw [← hj2]
      exact pow_dvd_pow 2 (by omega)
    obtain ⟨d', hd', hd'l, hd'c⟩ := fftStage_spec hstep hdvd data hd
    have hW := toC_factorIter (@stageFm_toC (2 ^ s) hstep)
    have hstride : (2 : Nat) ^ (k - s) = 2 * 2 ^ (k - (s + 1)) := by
      rw [← pow_succ']
      congr 1
      omega
    have hinv' : ∀ p, p < 2 ^ k → getc d' p =
        ∑ t ∈ Finset.range (2 ^ (s + 1)),
          Y (t * 2 ^ (k - (s + 1)) + bitRev (k - (s + 1)) (p / 2 ^ (s + 1))) *
            twiddle (2 ^ (s + 1)) ^ ((p % 2 ^ (s + 1)) * t) := by
      intro p hp
      rw [hj2]
      have hb := Nat.div_add_mod p (2 * 2 ^ s)
      have hrlt : p % (2 * 2 ^ s) < 2 * 2 ^ s := Nat.mod_lt _ (by positivity)
      by_cases hpair : p % (2 * 2 ^ s) < 2 ^ s
      · have hplt : p + 2 ^ s < 2 ^ k := matched_lt hstep rfl hdvd hp hpair
        have hps : p = 2 ^ s * (2 * (p / (2 * 2 ^ s))) + p % (2 * 2 ^ s) := by
          conv_lhs => rw [← hb]
          ring
        have hdiv2 : p / 2 ^ s = 2 * (p / (2 * 2 ^ s)) := by
          conv_lhs => rw [hps]
          rw [Nat.mul_add_div hstep, Nat.div_eq_of_lt hpair, add_zero]
        have hmods : p % 2 ^ s = p % (2 * 2 ^ s) := by
          conv_lhs => rw [hps]
          rw [Nat.mul_add_mod, Nat.mod_eq_of_lt hpair]
        have hsuccdiv : (p + 2 ^ s) / 2 ^ s = 2 * (p / (2 * 2 ^ s)) + 1 := by
          have h1 : p + 2 ^ s =
              2 ^ s * (2 * (p / (2 * 2 ^ s)) + 1) + p % (2 * 2 ^ s) := by
            conv_lhs => rw [hps]
            ring
          rw [h1, Nat.mul_add_div hstep, Nat.div_eq_of_lt hpair, add_zero]
        have hsuccmod : (p + 2 ^ s) % 2 ^ s = p % (2 * 2 ^ s) := by
          rw [Nat.add_mod_right, hmods]
        rw [getc_def, hd'c p hp, if_pos hpair, complex.Complex.toC_add,
          complex.Complex.toC_multiply, hW, ← getc_def, ← getc_def]
        rw [dft_combine_pair Y (2 ^ s) (2 ^ (k - (s + 1)))
          (bitRev (k - (s + 1)) (p / (2 * 2 ^ s))) (p % (2 * 2 ^ s)) hstep]
        rw [hinv p hp, hinv (p + 2 ^ s) hplt]
        rw [hstride, hdiv2, hsuccdiv, hmods, hsuccmod]
        rw [show k - s = k - (s + 1) + 1 by omega]
        rw [bitRev_two_mul, bitRev_two_mul_add_one]
      · have hge : 2 ^ s ≤ p % (2 * 2 ^ s) := by omega
        have hpge : 2 ^ s ≤ p := le_trans hge (Nat.mod_le _ _)
        have hsublt : p - 2 ^ s < 2 ^ k := by omega
        have hps : p = 2 ^ s * (2 * (p / (2 * 2 ^ s)) + 1) +
            (p % (2 * 2 ^ s) - 2 ^ s) := by
          have h2 : 2 * 2 ^ s * (p / (2 * 2 ^ s)) =
              2 ^ s * (2 * (p / (2 * 2 ^ s))) := by ring
          have h3 : 2 ^ s * (2 * (p / (2 * 2 ^ s)) + 1) =
              2 ^ s * (2 * (p / (2 * 2 ^ s))) + 2 ^ s := by ring
          omega
        have hsub : p - 2 ^ s = 2 ^ s * (2 * (p / (2 * 2 ^ s))) +
            (p % (2 * 2 ^ s) - 2 ^ s) := by
          have h3 : 2 ^ s * (2 * (p / (2 * 2 ^ s)) + 1) =
              2 ^ s * (2 * (p / (2 * 2 ^ s))) + 2 ^ s := by ring
          omega
        have hsmall : p % (2 * 2 ^ s) - 2 ^ s < 2 ^ s := by omega
        have hdivm : p / 2 ^ s = 2 * (p / (2 * 2 ^ s)) + 1 := by
          conv_lhs => rw [hps]
          rw [Nat.mul_add_div hstep, Nat.div_eq_of_lt hsmall, add_zero]
        have hmodm : p % 2 ^ s = p % (2 * 2 ^ s) - 2 ^ s := by
          conv_lhs => rw [hps]
          rw [Nat.mul_add_mod, Nat.mod_eq_of_lt hsmall]
        have hsubdiv : (p - 2 ^ s) / 2 ^ s = 2 * (p / (2 * 2 ^ s)) := by
          rw [hsub, Nat.mul_add_div hstep, Nat.div_eq_of_lt hsmall, add_zero]
        have hsubmod : (p - 2 ^ s) % 2 ^ s = p % (2 * 2 ^ s) - 2 ^ s := by
          rw [hsub, Nat.mul_add_mod, Nat.mod_eq_of_lt hsmall]
        rw [getc_def, hd'c p hp, if_neg hpair, complex.Complex.toC_minus,
          complex.Complex.toC_multiply, hW, ← getc_def, ← getc_def]
        rw [dft_combine_matched Y (2 ^ s) (2 ^ (k - (s + 1)))
          (bitRev (k - (s + 1)) (p / (2 * 2 ^ s))) hstep (p % (2 * 2 ^ s)) hge]
        rw [hinv (p - 2 ^ s) hsublt, hinv p hp]
        rw [hstride, hdivm, hsubdiv, hmodm, hsubmod]
        rw [show k - s = k - (s + 1) + 1 by omega]
        rw [bitRev_two_mul, bitRev_two_mul_add_one]
    obtain ⟨r, hr, hrl, hrc⟩ := ih (s + 1) d' (by omega) hd'l hinv'
    refine ⟨r, ?_, hrl, hrc⟩
    rw [fftStages, dif_pos ⟨hstep, Nat.pow_lt_pow_right (by norm_num) (by omega)⟩]
    rw [hd']
    show fftStages (2 ^ k) (2 ^ s <<< 1) d' = some r
    rw [show (2 : Nat) ^ s <<< 1 = 2 ^ (s + 1) by
      rw [Nat.shiftLeft_eq, pow_one, pow_succ]]
    exact hr

end fft

namespace fft

theorem dft_length (data : List complex.Complex) : (dft data).length = data.length := by
  simp [dft]

theorem toC_foldl_add (g : Nat → complex.Complex) (m : Nat) (init : complex.Complex) :
    complex.Complex.toC
        ((List.range m).foldl (fun sum n => complex.Complex.add sum (g n)) init) =
      complex.Complex.toC init + ∑ i ∈ Finset.range m, complex.Complex.toC (g i) := by
  induction m with
  | zero => simp
  | succ m ih =>
    rw [List.range_succ, List.foldl_append, List.foldl_cons, List.foldl_nil,
      complex.Complex.toC_add, ih, Finset.sum_range_succ]
    ring

theorem toC_dft_kernel (n p t : Nat) :
    complex.Complex.toC
        (complex.Complex.new (Real.cos (Real.pi * 2 * (p : ℝ) * (t : ℝ) / (n : ℝ)))
          (-1 * Real.sin (Real.pi * 2 * (p : ℝ) * (t : ℝ) / (n : ℝ)))) =
      twiddle n ^ (p * t) := by
  have hE : twiddle n ^ (p * t) =
      Complex.exp (((-(Real.pi * 2 * (p : ℝ) * (t : ℝ) / (n : ℝ)) : ℝ) : ℂ) *
        Complex.I) := by
    rw [twiddle_pow]
    congr 1
    push_cast
    ring
  rw [hE]
  apply Complex.ext
  · rw [Complex.exp_ofReal_mul_I_re, Real.cos_neg]
    rfl
  · rw [Complex.exp_ofReal_mul_I_im, Real.sin_neg]
    simp [complex.Complex.toC, complex.Complex.new]

/-- `dft` computes the explicit double summation
`X[p] = sum over t of x[t] * exp(-2*pi*i*p*t/N)`. -/
theorem dft_getc (data : List complex.Complex) (p : Nat) (hp : p < data.length) :
    getc (dft data) p =
      ∑ t ∈ Finset.range data.length,
        getc data t * twiddle data.length ^ (p * t) := by
  have h1 : (dft data)[p]? =
      some ((List.range data.length).foldl
        (fun sum n => complex.Complex.add sum
          (complex.Complex.multiply (data.getD n czero)
            (complex.Complex.new
              (Real.cos (Real.pi * 2 * (p : ℝ) * (n : ℝ) / (data.length : ℝ)))
              (-1 * Real.sin (Real.pi * 2 * (p : ℝ) * (n : ℝ) / (data.length : ℝ))))))
        (complex.Complex.new 0 0)) := by
    rw [dft, List.getElem?_map, List.getElem?_range hp]
    rfl
  rw [getc_def, List.getD_eq_getElem?_getD, h1]
  show complex.Complex.toC ((List.range data.length).foldl _ _) = _
  rw [toC_foldl_add]
  rw [show complex.Complex.toC (complex.Complex.new 0 0) = 0 by
    apply Complex.ext <;> simp [complex.Complex.toC, complex.Complex.new]]
  rw [zero_add]
  apply Finset.sum_congr rfl
  intro t _
  rw [complex.Complex.toC_multiply, toC_dft_kernel, getc_def]

/-- `fft` on inputs of length `2 ^ k` with `k < 32`: succeeds and computes
the order-`2 ^ k` negative exponential sums of the input. -/
theorem fft_spec_small {k : Nat} (hk : k < 32) (data : List complex.Complex)
    (hd : data.length = 2 ^ k) :
    ∃ r, fft data = some r ∧ r.length = 2 ^ k ∧
      ∀ p, p < 2 ^ k → getc r p =
        ∑ t ∈ Finset.range (2 ^ k), getc data t * twiddle (2 ^ k) ^ (p * t) := by
  obtain ⟨b, hb, hbl, hbc⟩ := butterfly_spec hk data hd
  have hinv : ∀ p, p < 2 ^ k → getc b p =
      ∑ t ∈ Finset.range (2 ^ 0),
        getc data (t * 2 ^ (k - 0) + bitRev (k - 0) (p / 2 ^ 0)) *
          twiddle (2 ^ 0) ^ ((p % 2 ^ 0) * t) := by
    intro p hp
    simp only [Nat.sub_zero, pow_zero, Nat.div_one, Nat.mod_one, zero_mul,
      zero_add, mul_one, Finset.sum_range_one]
    rw [getc_def, getc_def, List.getD_eq_getElem?_getD, List.getD_eq_getElem?_getD,
      hbc p hp]
  obtain ⟨r, hr, hrl, hrc⟩ := fftStages_spec (fun t => getc data t) k k 0 b
    (by omega) hbl hinv
  refine ⟨r, ?_, hrl, hrc⟩
  rw [fft, hb]
  show fftStages b.length 1 b = some r
  rw [hbl, show (1 : Nat) = 2 ^ 0 from (pow_zero 2).symm]
  exact hr

/-- `fft` on inputs of length `2 ^ k` with `32 ≤ k`: the `u32` cast of the
length truncates to `0`, so the bit-reversal pass does nothing, and the
stage loop produces exponential sums of the bit-reversed input instead. -/
theorem fft_spec_big {k : Nat} (hk : 32 ≤ k) (data : List complex.Complex)
    (hd : data.length = 2 ^ k) :
    ∃ r, fft data = some r ∧ r.length = 2 ^ k ∧
      ∀ p, p < 2 ^ k → getc r p =
        ∑ t ∈ Finset.range (2 ^ k),
          getc data (bitRev k t) * twiddle (2 ^ k) ^ (p * t) := by
  have hb : butterfly data = some data := by
    apply butterfly_id_of_truncated
    rw [hd, Nat.mod_eq_zero_of_dvd (pow_dvd_pow 2 hk)]
    omega
  have hinv : ∀ p, p < 2 ^ k → getc data p =
      ∑ t ∈ Finset.range (2 ^ 0),
        getc data (bitRev k (t * 2 ^ (k - 0) + bitRev (k - 0) (p / 2 ^ 0))) *
          twiddle (2 ^ 0) ^ ((p % 2 ^ 0) * t) := by
    intro p hp
    simp only [Nat.sub_zero, pow_zero, Nat.div_one, Nat.mod_one, zero_mul,
      zero_add, mul_one, Finset.sum_range_one]
    rw [bitRev_bitRev hp]
  obtain ⟨r, hr, hrl, hrc⟩ := fftStages_spec (fun t => getc data (bitRev k t)) k k 0
    data (by omega) hd hinv
  refine ⟨r, ?_, hrl, hrc⟩
  rw [fft, hb]
  show fftStages data.length 1 data = some r
  rw [hd, show (1 : Nat) = 2 ^ 0 from (pow_zero 2).symm]
  exact hr

theorem getc_eq_getElem {l : List complex.Complex} {i : Nat} (h : i < l.length) :
    getc l i = complex.Complex.toC l[i] := by
  rw [getc_def, List.getD_eq_getElem?_getD, List.getElem?_eq_getElem h]
  rfl

/-- For power-of-two lengths below `2 ^ 32`, `fft` and `dft` agree exactly
(in the real-arithmetic model). -/
theorem fft_eq_dft {k : Nat} (hk : k < 32) (data : List complex.Complex)
    (hd : data.length = 2 ^ k) : fft data = some (dft data) := by
  obtain ⟨r, hr, hrl, hrc⟩ := fft_spec_small hk data hd
  rw [hr]
  congr 1
  apply List.ext_getElem (by rw [hrl, dft_length, hd])
  intro i h1 h2
  apply complex.Complex.toC_inj
  rw [← getc_eq_getElem h1, ← getc_eq_getElem h2]
  rw [hrc i (by omega)]
  rw [dft_getc data i (by omega), hd]

end fft

namespace fft

/-- Applying `butterfly` twice on a power-of-two-length list returns the
original list (for every exponent `k`: below 32 by the bit-reversal
involution, at or above 32 because the truncated mask disables all swaps). -/
theorem butterfly_involution {α : Type} {k : Nat} (data : List α)
    (hd : data.length = 2 ^ k) : (butterfly data).bind butterfly = some data := by
  by_cases hk : k < 32
  · obtain ⟨r, hr, hrl, hrc⟩ := butterfly_spec hk data hd
    obtain ⟨r2, hr2, hr2l, hr2c⟩ := butterfly_spec hk r hrl
    rw [hr, Option.some_bind, hr2]
    congr 1
    apply List.ext_getElem (by omega)
    intro i h1 h2
    have hi : i < 2 ^ k := by omega
    have h3 : r2[i]? = data[i]? := by
      rw [hr2c i hi, hrc (bitRev k i) (bitRev_lt k i), bitRev_bitRev hi]
    rw [List.getElem?_eq_getElem h1, List.getElem?_eq_getElem h2] at h3
    exact Option.some.inj h3
  · have h32 : 32 ≤ k := by omega
    have hmod : data.length % 2 ^ 32 ≤ 1 := by
      rw [hd, Nat.mod_eq_zero_of_dvd (pow_dvd_pow 2 h32)]
      omega
    rw [butterfly_id_of_truncated data hmod, Option.some_bind,
      butterfly_id_of_truncated data hmod]

theorem advance01 : advanceTarget 0 1 = 1 := by
  rw [advanceTarget, if_neg (by decide)]
  decide

theorem advance11 : advanceTarget 1 1 = 0 := by
  rw [advanceTarget, if_pos (by decide),
    show (1 : Nat) &&& u32Not 1 = 0 by decide,
    show (1 : Nat) >>> 1 = 0 by decide, advanceTarget_zero_mask]

theorem butterfly_data3 : butterfly data3 = some data3 := by
  show butterflyAux 3 0 0 data3 = some data3
  rw [butterflyAux, if_neg (by decide)]
  show butterflyAux 2 1 (advanceTarget 0 ((data3.length % 2 ^ 32) >>> 1)) data3 =
    some data3
  rw [show (data3.length % 2 ^ 32) >>> 1 = 1 from by decide, advance01]
  rw [butterflyAux, if_neg (by decide)]
  show butterflyAux 1 2 (advanceTarget 1 ((data3.length % 2 ^ 32) >>> 1)) data3 =
    some data3
  rw [show (data3.length % 2 ^ 32) >>> 1 = 1 from by decide, advance11]
  rw [butterflyAux, if_neg (by decide)]
  rfl

theorem fftPairs_data3 :
    fftPairs 1 (1 <<< 1) (complex.Complex.new 1 0) 0 data3 = none := by
  rw [show (1 : Nat) <<< 1 = 2 from rfl]
  rw [fftPairs_cons _ _ _ (by decide) (by decide) (by decide)]
  rw [fftPairs]
  rfl

theorem fftStage_data3 : fftStage 1 data3 = none := by
  unfold fftStage
  simp only []
  rw [show List.range 1 = [0] from rfl, List.foldlM_cons]
  simp only []
  rw [fftPairs_data3]
  rfl

/-- On the length-3 input the inner loop of `fft` reaches
`matched = pair + step = 3 = data.len()`: an out-of-bounds access (panic). -/
theorem fft_data3 : fft data3 = none := by
  rw [fft, butterfly_data3]
  show fftStages data3.length 1 data3 = none
  rw [show data3.length = 3 from rfl]
  rw [fftStages, dif_pos (by constructor <;> decide)]
  rw [fftStage_data3]

end fft

namespace fft

theorem toC_new_one : complex.Complex.toC (complex.Complex.new 1 0) = 1 := by
  apply Complex.ext <;> simp [complex.Complex.toC, complex.Complex.new]

theorem toC_new_zero : complex.Complex.toC (complex.Complex.new 0 0) = 0 := by
  apply Complex.ext <;> simp [complex.Complex.toC, complex.Complex.new]

theorem x32_length : x32.length = 2 ^ 32 := by
  simp [x32]

theorem getc_x32 {j : Nat} (hj : j < 2 ^ 32) :
    getc x32 j = if j = 1 then (1 : ℂ) else 0 := by
  have h1 : x32[j]? =
      some (if j = 1 then complex.Complex.new 1 0 else complex.Complex.new 0 0) := by
    rw [x32, List.getElem?_map, List.getElem?_range hj]
    rfl
  rw [getc_def, List.getD_eq_getElem?_getD, h1]
  by_cases h : j = 1
  · rw [if_pos h, if_pos h]
    exact toC_new_one
  · rw [if_neg h, if_neg h]
    exact toC_new_zero

theorem sum_indicator (n j : Nat) (hj : j < n) (g : Nat → ℂ) (Z : Nat → ℂ)
    (hZ : ∀ t, t < n → Z t = if t = j then (1 : ℂ) else 0) :
    ∑ t ∈ Finset.range n, Z t * g t = g j := by
  have h1 : ∀ t ∈ Finset.range n, Z t * g t = if t = j then g t else 0 := by
    intro t ht
    rw [hZ t (Finset.mem_range.mp ht)]
    by_cases h : t = j
    · rw [if_pos h, if_pos h, one_mul]
    · rw [if_neg h, if_neg h, zero_mul]
  rw [Finset.sum_congr rfl h1, Finset.sum_ite_eq' (Finset.range n) j g,
    if_pos (Finset.mem_range.mpr hj)]

theorem bitRev32_one : bitRev 32 1 = 2 ^ 31 := by
  rw [bitRev_one (by norm_num)]

theorem bitRev32_pow31 : bitRev 32 (2 ^ 31) = 1 := by
  rw [← bitRev32_one, bitRev_bitRev (by norm_num : 1 < 2 ^ 32)]

/-- On the impulse input of length `2 ^ 32`, `fft` succeeds but — because the
truncated mask disables the bit-reversal — produces `-1` at index 1. -/
theorem fft_x32 : ∃ r, fft x32 = some r ∧
    complex.Complex.toC (r.getD 1 czero) = -1 := by
  obtain ⟨r, hr, hrl, hrc⟩ := fft_spec_big (le_refl 32) x32 x32_length
  refine ⟨r, hr, ?_⟩
  have hZ : ∀ t, t < 2 ^ 32 →
      getc x32 (bitRev 32 t) = if t = 2 ^ 31 then (1 : ℂ) else 0 := by
    intro t ht
    rw [getc_x32 (bitRev_lt 32 t)]
    by_cases h : t = 2 ^ 31
    · rw [if_pos h, h, bitRev32_pow31, if_pos rfl]
    · have hb : bitRev 32 t ≠ 1 := by
        intro hc
        apply h
        rw [← bitRev_bitRev (show t < 2 ^ 32 from ht), hc, bitRev32_one]
      rw [if_neg h, if_neg hb]
  rw [← getc_def, hrc 1 (by norm_num)]
  rw [sum_indicator (2 ^ 32) (2 ^ 31) (by norm_num)
    (fun t => twiddle (2 ^ 32) ^ (1 * t)) (fun t => getc x32 (bitRev 32 t)) hZ]
  rw [one_mul, show (2 : Nat) ^ 32 = 2 * 2 ^ 31 by norm_num]
  exact twiddle_half (by norm_num)

/-- On the impulse input, `dft` puts `exp(-2 pi i / 2^32)` at index 1. -/
theorem dft_x32 : complex.Complex.toC ((dft x32).getD 1 czero) =
    twiddle (2 ^ 32) := by
  rw [← getc_def, dft_getc x32 1 (by rw [x32_length]; norm_num), x32_length]
  rw [sum_indicator (2 ^ 32) 1 (by norm_num)
    (fun t => twiddle (2 ^ 32) ^ (1 * t)) (fun t => getc x32 t)
    (fun t ht => getc_x32 ht)]
  rw [one_mul, pow_one]

theorem twiddle_re_cos (N : Nat) :
    (twiddle N).re = Real.cos (2 * Real.pi / (N : ℝ)) := by
  have h : twiddle N =
      Complex.exp (((-(2 * Real.pi / (N : ℝ)) : ℝ) : ℂ) * Complex.I) := by
    rw [twiddle]
    congr 1
    push_cast
    ring
  rw [h, Complex.exp_ofReal_mul_I_re, Real.cos_neg]

theorem cos_small_nonneg :
    0 ≤ Real.cos (2 * Real.pi / (((2 : Nat) ^ 32 : Nat) : ℝ)) := by
  have hpi := Real.pi_pos
  have h1 : (((2 : Nat) ^ 32 : Nat) : ℝ) = 4294967296 := by norm_num
  rw [h1]
  apply Real.cos_nonneg_of_mem_Icc
  rw [Set.mem_Icc]
  constructor
  · have h2 : (0 : ℝ) ≤ 2 * Real.pi / 4294967296 := by positivity
    linarith
  · rw [div_le_iff (by norm_num : (0 : ℝ) < 4294967296)]
    nlinarith

end fft

/-! ## The claims -/

namespace fft

/-- Claim C1 (corrected): as stated for every power-of-two length the claim
fails, because `data.len() as u32` truncates inside `butterfly` for length
`2 ^ 32`; restricted to lengths `2 ^ k` with `k < 32` the fast transform
agrees exactly with the reference transform, and `dft` computes
`X[p] = sum over t of x[t] * exp(-2 pi i p t / N)` by double summation. -/
theorem claim_C1 {k : Nat} (hk : k < 32) (data : List complex.Complex)
    (hd : data.length = 2 ^ k) :
    fft data = some (dft data) ∧
    ∀ p, p < data.length → getc (dft data) p =
      ∑ t ∈ Finset.range data.length,
        getc data t * twiddle data.length ^ (p * t) :=
  ⟨fft_eq_dft hk data hd, fun p hp => dft_getc data p hp⟩

/-- Witness for C1 at the concrete length-2 input. -/
theorem claim_C1_witness :
    fft data2 = some (dft data2) ∧
    ∀ p, p < data2.length → getc (dft data2) p =
      ∑ t ∈ Finset.range data2.length,
        getc data2 t * twiddle data2.length ^ (p * t) :=
  @claim_C1 1 (by decide) data2 rfl

/-- Counterexample to C1 as stated: on the length-`2 ^ 32` unit impulse the
fast transform yields `-1` at index 1 while the reference transform yields
`cos(2 pi / 2 ^ 32) >= 0` there, a gap far above the 1e-6 tolerance. -/
theorem claim_C1_counterexample :
    ¬ ∀ (k : Nat) (data r : List complex.Complex), data.length = 2 ^ k →
      fft data = some r → ∀ p, p < data.length →
        |(r.getD p czero).re - ((dft data).getD p czero).re| ≤ 1e-6 ∧
        |(r.getD p czero).im - ((dft data).getD p czero).im| ≤ 1e-6 := by
  intro h
  obtain ⟨r, hr, hc⟩ := fft_x32
  have h1 := (h 32 x32 r x32_length hr 1 (by rw [x32_length]; norm_num)).1
  have h2 : (r.getD 1 czero).re = -1 := by
    have h3 := congrArg Complex.re hc
    rw [complex.Complex.toC_re] at h3
    simpa using h3
  have h5 := congrArg Complex.re dft_x32
  rw [complex.Complex.toC_re, twiddle_re_cos] at h5
  rw [h2, h5] at h1
  have h6 := cos_small_nonneg
  rcases abs_le.mp h1 with ⟨h7, h8⟩
  norm_num at h7
  linarith

/-- Claim C2 (corrected): as stated for every power-of-two length the claim
fails, because for length `2 ^ 32` the truncated `u32` mask is zero and
`butterfly` moves nothing; restricted to lengths `2 ^ K` with `K < 32` the
operation realizes exactly the bit-reversal permutation, in both
directions. -/
theorem claim_C2 {α : Type} {K : Nat} (hK : K < 32) (x : List α)
    (hx : x.length = 2 ^ K) :
    ∃ r, butterfly x = some r ∧ r.length = 2 ^ K ∧
      (∀ i, i < 2 ^ K → r[bitRev K i]? = x[i]?) ∧
      (∀ i, i < 2 ^ K → r[i]? = x[bitRev K i]?) := by
  obtain ⟨r, hr, hrl, hrc⟩ := butterfly_spec hK x hx
  refine ⟨r, hr, hrl, fun i hi => ?_, fun i hi => hrc i hi⟩
  rw [hrc (bitRev K i) (bitRev_lt K i), bitRev_bitRev hi]

/-- Witness for C2 at the concrete length-4 input. -/
theorem claim_C2_witness :
    ∃ r, butterfly nums4 = some r ∧ r.length = 2 ^ 2 ∧
      (∀ i, i < 2 ^ 2 → r[bitRev 2 i]? = nums4[i]?) ∧
      (∀ i, i < 2 ^ 2 → r[i]? = nums4[bitRev 2 i]?) :=
  @claim_C2 Nat 2 (by decide) nums4 rfl

/-- Counterexample to C2 as stated: on `List.range (2 ^ 32)` the operation
is the identity, so the element originally at index 1 does not move to the
bit-reversed index `2 ^ 31`. -/
theorem claim_C2_counterexample :
    ¬ ∀ (k : Nat) (data r : List Nat), data.length = 2 ^ k →
      butterfly data = some r → ∀ i, i < data.length →
        r[bitRev k i]? = data[i]? := by
  intro h
  have hb : butterfly (List.range (2 ^ 32)) = some (List.range (2 ^ 32)) :=
    butterfly_id_of_truncated _
      (by rw [List.length_range, Nat.mod_self]; exact Nat.zero_le 1)
  have h1 := h 32 (List.range (2 ^ 32)) (List.range (2 ^ 32))
    (List.length_range (2 ^ 32)) hb 1 (by rw [List.length_range]; norm_num)
  rw [bitRev32_one, List.getElem?_range (by norm_num),
    List.getElem?_range (by norm_num), Option.some.injEq] at h1
  norm_num at h1

end fft

namespace epicycle

/-- Claim C3 (confirmed): `get_coordinate_for` fails with the
invalid-precision error reporting both the requested and the maximum
precision whenever `precision` exceeds the stored count, and succeeds with
a coordinate otherwise. -/
theorem claim_C3 (e : Epicycle) (time : ℝ) (precision : Nat) :
    (precision > e.data.length →
      e.get_coordinate_for time precision =
        Except.error (InvalidPrecisionError.new precision e.data.length)) ∧
    (precision ≤ e.data.length →
      ∃ c, e.get_coordinate_for time precision = Except.ok c) := by
  constructor
  · intro h
    unfold Epicycle.get_coordinate_for
    rw [if_pos h]
  · intro h
    unfold Epicycle.get_coordinate_for
    rw [if_neg (by omega)]
    exact ⟨_, rfl⟩

/-- Witness for C3 at the concrete three-sample model with precisions 5
and 2. -/
theorem claim_C3_witness :
    (Epicycle.new sample7).get_coordinate_for 0 5 =
      Except.error (InvalidPrecisionError.new 5 (Epicycle.new sample7).data.length) ∧
    ∃ c, (Epicycle.new sample7).get_coordinate_for 0 2 = Except.ok c := by
  constructor
  · exact (claim_C3 (Epicycle.new sample7) 0 5).1
      (by simp [Epicycle.new_length, sample7])
  · exact (claim_C3 (Epicycle.new sample7) 0 2).2
      (by simp [Epicycle.new_length, sample7])

/-- Claim C4 (confirmed): the model built by `Epicycle::new` keeps the
input length, is a permutation of the coefficients paired with their
original 0-based positions, and is sorted by descending amplitude. -/
theorem claim_C4 (input : List complex.Complex) :
    (Epicycle.new input).data.length = input.length ∧
    ((Epicycle.new input).data).Perm (input.zip (List.range input.length)) ∧
    ∀ i j, i ≤ j → j < (Epicycle.new input).data.length →
      complex.Complex.amplitude (((Epicycle.new input).data.getD j pzero).1) ≤
        complex.Complex.amplitude (((Epicycle.new input).data.getD i pzero).1) :=
  ⟨Epicycle.new_length input, Epicycle.new_perm input, Epicycle.new_sorted input⟩

/-- Witness for C4 at the concrete three-sample input. -/
theorem claim_C4_witness :
    (Epicycle.new sample7).data.length = sample7.length ∧
    complex.Complex.amplitude (((Epicycle.new sample7).data.getD 2 pzero).1) ≤
      complex.Complex.amplitude (((Epicycle.new sample7).data.getD 0 pzero).1) := by
  obtain ⟨h1, h2, h3⟩ := claim_C4 sample7
  refine ⟨h1, h3 0 2 (by decide) ?_⟩
  rw [h1]
  simp [sample7]

/-- Claim C5 (confirmed): with `precision` within range and no early exit
(every used amplitude at least 1e-9), `get_coordinate_for` returns exactly
the accumulated sums of `radius * cos/sin (frequency * time + phase)` over
the first `precision` sorted pairs. -/
theorem claim_C5 (e : Epicycle) (time : ℝ) (precision : Nat)
    (hp : precision ≤ e.data.length)
    (hamp : ∀ i, i < precision → (1e-9 : ℝ) ≤
      complex.Complex.amplitude ((e.data.getD i pzero).1)) :
    e.get_coordinate_for time precision = Except.ok
      ⟨∑ i ∈ Finset.range precision,
          complex.Complex.amplitude ((e.data.getD i pzero).1) *
            Real.cos (((e.data.getD i pzero).2 : ℝ) * time +
              complex.Complex.phase ((e.data.getD i pzero).1)),
        ∑ i ∈ Finset.range precision,
          complex.Complex.amplitude ((e.data.getD i pzero).1) *
            Real.sin (((e.data.getD i pzero).2 : ℝ) * time +
              complex.Complex.phase ((e.data.getD i pzero).1))⟩ := by
  have hmem : ∀ p ∈ e.data.take precision,
      (1e-9 : ℝ) ≤ complex.Complex.amplitude p.1 := by
    intro p hpm
    obtain ⟨i, hi, hpe⟩ := List.mem_iff_getElem.mp hpm
    rw [List.length_take] at hi
    have hi1 : i < precision := lt_of_lt_of_le hi inf_le_left
    have hi2 : i < e.data.length := lt_of_lt_of_le hi inf_le_right
    have hpd : p = e.data.getD i pzero := by
      rw [List.getD_eq_getElem?_getD, List.getElem?_eq_getElem hi2,
        Option.getD_some]
      rw [← hpe]
      exact List.getElem_take e.data
    rw [hpd]
    exact hamp i hi1
  unfold Epicycle.get_coordinate_for
  rw [if_neg (by omega)]
  show Except.ok (Coordinate.mk (coordLoop time (e.data.take precision) 0 0).1
    (coordLoop time (e.data.take precision) 0 0).2) = _
  rw [coordLoop_sum time (e.data.take precision) 0 0 hmem]
  rw [Except.ok.injEq, Coordinate.mk.injEq]
  dsimp only
  constructor
  · rw [zero_add, map_take_sum (fun p => complex.Complex.amplitude p.1 *
      Real.cos ((p.2 : ℝ) * time + complex.Complex.phase p.1))
      pzero e.data precision hp]
  · rw [zero_add, map_take_sum (fun p => complex.Complex.amplitude p.1 *
      Real.sin ((p.2 : ℝ) * time + complex.Complex.phase p.1))
      pzero e.data precision hp]

/-- Witness for C5 at the concrete three-sample model with precision 1. -/
theorem claim_C5_witness :
    1 ≤ (Epicycle.new sample7).data.length ∧
    (Epicycle.new sample7).get_coordinate_for Real.pi 1 = Except.ok
      ⟨∑ i ∈ Finset.range 1,
          complex.Complex.amplitude (((Epicycle.new sample7).data.getD i pzero).1) *
            Real.cos ((((Epicycle.new sample7).data.getD i pzero).2 : ℝ) * Real.pi +
              complex.Complex.phase (((Epicycle.new sample7).data.getD i pzero).1)),
        ∑ i ∈ Finset.range 1,
          complex.Complex.amplitude (((Epicycle.new sample7).data.getD i pzero).1) *
            Real.sin ((((Epicycle.new sample7).data.getD i pzero).2 : ℝ) * Real.pi +
              complex.Complex.phase (((Epicycle.new sample7).data.getD i pzero).1))⟩ := by
  have h1 : 1 ≤ (Epicycle.new sample7).data.length := by
    simp [Epicycle.new_length, sample7]
  have h2 : ∀ i, i < 1 → (1e-9 : ℝ) ≤
      complex.Complex.amplitude (((Epicycle.new sample7).data.getD i pzero).1) := by
    intro i hi
    have hi0 : i = 0 := by omega
    rw [hi0, sample7_sorted]
    simp only [List.getD_cons_zero]
    exact not_lt.mp radius56_big
  exact ⟨h1, claim_C5 (Epicycle.new sample7) Real.pi 1 h1 h2⟩

/-- Claim C7 (corrected): the exact reconstructions of the three-sample
model at time `pi` are `(5, 6)`, `(2, 2)` and `(3, 3)` at precisions 1, 2
and 3, not the `(-2, 7)`, `(-2, 12)`, `(-1, 13)` the claim states. -/
theorem claim_C7 :
    (Epicycle.new sample7).get_coordinate_for Real.pi 1 = Except.ok ⟨5, 6⟩ ∧
    (Epicycle.new sample7).get_coordinate_for Real.pi 2 = Except.ok ⟨2, 2⟩ ∧
    (Epicycle.new sample7).get_coordinate_for Real.pi 3 = Except.ok ⟨3, 3⟩ :=
  ⟨coord7_1, coord7_2, coord7_3⟩

/-- Counterexample to C7 as stated: no coordinate within distance 1 per
component of `(-2, 7)` is returned at precision 1 (the exact value is
distance 7 away in the first component). -/
theorem claim_C7_counterexample :
    ¬ ∃ c, (Epicycle.new sample7).get_coordinate_for Real.pi 1 = Except.ok c ∧
      |c.x - (-2)| ≤ 1 ∧ |c.y - 7| ≤ 1 := by
  rintro ⟨c, hc, hx, hy⟩
  rw [coord7_1, Except.ok.injEq] at hc
  rw [← hc] at hx
  have h5 : |(5 : ℝ) - (-2)| ≤ 1 := hx
  rcases abs_le.mp h5 with ⟨h6, h7⟩
  linarith

end epicycle

namespace fft

/-- Claim C6 (confirmed): applying `butterfly` twice on a power-of-two
length input returns the original sequence, for every exponent. -/
theorem claim_C6 {α : Type} {k : Nat} (data : List α)
    (hd : data.length = 2 ^ k) :
    (butterfly data).bind butterfly = some data :=
  butterfly_involution data hd

/-- Witness for C6 at the concrete length-4 input. -/
theorem claim_C6_witness : (butterfly nums4).bind butterfly = some nums4 :=
  @claim_C6 Nat 2 nums4 rfl

/-- Claim C9 (confirmed): on every power-of-two length input `fft` performs
only in-bounds accesses and returns a result, while on the length-3 input
the access at `pair + step = 3` is out of bounds and `fft` panics. -/
theorem claim_C9 :
    (∀ (k : Nat) (data : List complex.Complex), data.length = 2 ^ k →
      (fft data).isSome = true) ∧ fft data3 = none := by
  constructor
  · intro k data hd
    by_cases hk : k < 32
    · obtain ⟨r, hr, -, -⟩ := fft_spec_small hk data hd
      rw [hr]
      rfl
    · obtain ⟨r, hr, -, -⟩ := fft_spec_big (by omega) data hd
      rw [hr]
      rfl
  · exact fft_data3

/-- Witness for C9 at the concrete length-2 and length-3 inputs. -/
theorem claim_C9_witness : (fft data2).isSome = true ∧ fft data3 = none :=
  ⟨claim_C9.1 1 data2 rfl, claim_C9.2⟩

end fft
